import Mathlib

/-!
Verification of the query-safety and resource-addressing layer of the
BigQuery MCP server in `src/index.ts`.

SQL text and all other strings are modelled as `List Char`.  The two
JavaScript regular expressions of the source are embedded as executable
scanners with exactly the ECMAScript semantics they exercise:

* `forbiddenPattern` (line 271):
  `\b(INSERT|UPDATE|DELETE|CREATE|DROP|ALTER|MERGE|TRUNCATE|GRANT|REVOKE|EXECUTE|BEGIN|COMMIT|ROLLBACK)\b` with flag `i`;
* `unqualifiedPattern` (line 161):
  `FROM\s+(?:(\w+)\.)?INFORMATION_SCHEMA\.TABLES` with flags `gi`,
  used by `sql.replace` with a callback that throws when the optional
  dataset group is absent.

External collaborators (the warehouse client, the WHATWG URL resolver)
are modelled by the interfaces the source consumes, per spec section 6.
-/

abbrev Str := List Char

deriving instance DecidableEq for Except

/-- Character class `\w` of ECMAScript regexes: `[A-Za-z0-9_]`. -/
def isWordChar (c : Char) : Bool :=
  decide (65 ≤ c.toNat ∧ c.toNat ≤ 90) || decide (97 ≤ c.toNat ∧ c.toNat ≤ 122) ||
  decide (48 ≤ c.toNat ∧ c.toNat ≤ 57) || decide (c.toNat = 95)

/-- Character class `\s` of ECMAScript regexes (WhiteSpace plus LineTerminator). -/
def isSpaceChar (c : Char) : Bool :=
  decide (c.toNat = 32) || decide (9 ≤ c.toNat ∧ c.toNat ≤ 13) ||
  decide (c.toNat = 160) || decide (c.toNat = 0x1680) ||
  decide (0x2000 ≤ c.toNat ∧ c.toNat ≤ 0x200a) ||
  decide (c.toNat = 0x2028) || decide (c.toNat = 0x2029) ||
  decide (c.toNat = 0x202f) || decide (c.toNat = 0x205f) ||
  decide (c.toNat = 0x3000) || decide (c.toNat = 0xfeff)

/-- Case-insensitive match of an input character `c` against a pattern
character `p`, with the canonicalisation the regex flag `i` performs on
the ASCII pattern characters appearing in the source regexes. -/
def ciMatch (c p : Char) : Bool :=
  decide (c.toNat = p.toNat) ||
  (decide (c.toNat = p.toNat + 32) && decide (65 ≤ p.toNat) && decide (p.toNat ≤ 90))

/-- Case-insensitive equality of an input string with a pattern string. -/
def ciEqL : Str → Str → Bool
  | [], [] => true
  | c :: cs, p :: ps => ciMatch c p && ciEqL cs ps
  | _, _ => false

/-- Strip a case-insensitive occurrence of the pattern `pat` from the front
of `s`, returning the consumed input characters and the remainder. -/
def ciStrip : Str → Str → Option (Str × Str)
  | [], s => some ([], s)
  | _ :: _, [] => none
  | p :: ps, c :: cs =>
    if ciMatch c p then (ciStrip ps cs).map (fun pr => (c :: pr.1, pr.2)) else none

/-! ### The Query Safety Gate (`forbiddenPattern`, src/index.ts lines 271-274) -/

/-- The forbidden-operation tokens of `forbiddenPattern`. -/
def forbiddenTokens : List Str :=
  ["INSERT".data, "UPDATE".data, "DELETE".data, "CREATE".data, "DROP".data,
   "ALTER".data, "MERGE".data, "TRUNCATE".data, "GRANT".data, "REVOKE".data,
   "EXECUTE".data, "BEGIN".data, "COMMIT".data, "ROLLBACK".data]

/-- Word boundary `\b` after a token that ends in a word character: the rest
of the input must be empty or start with a non-word character. -/
def wordBoundaryAfter : Str → Bool
  | [] => true
  | c :: _ => ! isWordChar c

/-- Whether the token `tok` matches case-insensitively at the front of `s`
with a word boundary after it. -/
def tokenHitAt (s tok : Str) : Bool :=
  match ciStrip tok s with
  | some (_, rest) => wordBoundaryAfter rest
  | none => false

/-- Scanner for `forbiddenPattern.test`: try every position; `prevWord`
records whether the character before the current position is a word
character (for the leading `\b`, since every token starts with a letter). -/
def scanTokens (prevWord : Bool) : Str → Bool
  | [] => false
  | c :: rest =>
    ((! prevWord) && forbiddenTokens.any (fun t => tokenHitAt (c :: rest) t)) ||
      scanTokens (isWordChar c) rest

/-- Embedding of `forbiddenPattern.test(sql)` (src/index.ts line 272). -/
def forbiddenPatternTest (sql : Str) : Bool := scanTokens false sql

/-- Embedding of the inline read-only check of the `query` tool handler
(src/index.ts lines 271-274). -/
def gateMsg : Str := "Only READ operations are allowed".data

def checkReadOnly (sql : Str) : Except Str Unit :=
  if forbiddenPatternTest sql then .error gateMsg else .ok ()

/-! ### The System-Catalog Qualifier (`qualifyTablePath`, src/index.ts lines 159-168) -/

def fromChars : Str := "FROM".data

def infoTablesChars : Str := "INFORMATION_SCHEMA.TABLES".data

def qualErrMsg : Str :=
  "Dataset must be specified when querying INFORMATION_SCHEMA (e.g. dataset.INFORMATION_SCHEMA.TABLES)".data

/-- Replacement text produced by the `replace` callback for a match with
dataset group `d` (src/index.ts line 164). -/
def rwStr (p d : Str) : Str :=
  "FROM `".data ++ p ++ '.' :: d ++ '.' :: "INFORMATION_SCHEMA.TABLES`".data

/-- Alternative with the optional group present:
`(\w+)\.INFORMATION_SCHEMA\.TABLES` after `FROM\s+`.  Greedy `\w+` with a
following literal dot means only the maximal word run can precede the dot. -/
def altPrefixed (mF ws r2 : Str) : Option (Str × Option Str × Str) :=
  let run := r2.takeWhile isWordChar
  match r2.dropWhile isWordChar with
  | c :: r4 =>
    if run.isEmpty then none
    else if c = '.' then
      match ciStrip infoTablesChars r4 with
      | some (mL, rest) => some (mF ++ ws ++ run ++ c :: mL, some run, rest)
      | none => none
    else none
  | [] => none

/-- Alternative with the optional group absent:
`INFORMATION_SCHEMA\.TABLES` directly after `FROM\s+`. -/
def altPlain (mF ws r2 : Str) : Option (Str × Option Str × Str) :=
  match ciStrip infoTablesChars r2 with
  | some (mL, rest) => some (mF ++ ws ++ mL, none, rest)
  | none => none

/-- Match of `unqualifiedPattern` at the start of `s`.  Returns the consumed
characters, the optional dataset group, and the remaining input.  The
alternative with the group is preferred, as the greedy `(?:...)?` does. -/
def matchQualAt (s : Str) : Option (Str × Option Str × Str) :=
  match ciStrip fromChars s with
  | none => none
  | some (mF, r1) =>
    let ws := r1.takeWhile isSpaceChar
    let r2 := r1.dropWhile isSpaceChar
    if ws.isEmpty then none
    else
      match altPrefixed mF ws r2 with
      | some res => some res
      | none => altPlain mF ws r2

/-- Fuelled scanner for `sql.replace(unqualifiedPattern, callback)`: find
matches left to right, replace prefixed matches, throw on an unprefixed
match, copy all other characters unchanged. -/
def qualifyAux (p : Str) : Nat → Str → Except Str Str
  | _, [] => .ok []
  | 0, _ :: _ => .ok []
  | fuel + 1, c :: rest =>
    match matchQualAt (c :: rest) with
    | some (_, some d, r) => (qualifyAux p fuel r).map (fun t => rwStr p d ++ t)
    | some (_, none, _) => .error qualErrMsg
    | none => (qualifyAux p fuel rest).map (fun t => c :: t)

/-- Embedding of `qualifyTablePath` (src/index.ts lines 159-168). -/
def qualifyTablePath (sql projectId : Str) : Except Str Str :=
  qualifyAux projectId sql.length sql

/-! ### The query tool handler (src/index.ts lines 265-298) -/

structure ServerConfig where
  projectId : Str
  location : Option Str
  keyFilename : Option Str
deriving DecidableEq, Repr

structure WarehouseRequest where
  query : Str
  location : Option Str
  maximumBytesBilled : Str
deriving DecidableEq, Repr

/-- Whether `pat` occurs as a substring of `s`. -/
def containsSub (pat : Str) : Str → Bool
  | [] => pat.isEmpty
  | c :: rest => pat.isPrefixOf (c :: rest) || containsSub pat rest

def infoSchemaChars : Str := "INFORMATION_SCHEMA".data

def defaultMaxBytes : Str := "1000000000".data

def unknownToolMsg (name : Str) : Str := "Unknown tool: ".data ++ name

/-- Embedding of the `CallToolRequestSchema` handler for tool invocations.
It returns either an error (a thrown message) or the request that is
submitted to the warehouse client `bigquery.query` — producing a
`WarehouseRequest` is the model of invoking the warehouse. -/
def callToolQuery (cfg : ServerConfig) (name sql : Str) (maxB : Option Str) :
    Except Str WarehouseRequest :=
  if name = "query".data then
    let mb := match maxB with
      | some v => if v = [] then defaultMaxBytes else v
      | none => defaultMaxBytes
    match checkReadOnly sql with
    | .error e => .error e
    | .ok _ =>
      match (if containsSub infoSchemaChars (sql.map Char.toUpper) then
               qualifyTablePath sql cfg.projectId
             else .ok sql) with
      | .error e => .error e
      | .ok sql2 => .ok ⟨sql2, cfg.location, mb⟩
  else .error (unknownToolMsg name)

/-! ### Startup argument parsing (`parseArgs`, src/index.ts lines 70-113) -/

def dashDash : Str := "--".data

def usageMsg : Str :=
  ("Missing required argument: --project-id\n".data ++
   "Usage: mcp-server-bigquery --project-id <project-id> [--location <location>] [--key-file <path-to-key-file>]".data)

def parseArgsLoop (cfg : ServerConfig) : List Str → Except Str ServerConfig
  | [] => .ok cfg
  | arg :: rest =>
    if ¬ dashDash.isPrefixOf arg then .error ("Invalid argument: ".data ++ arg)
    else
      match rest with
      | [] => .error ("Missing value for argument: ".data ++ arg)
      | v :: rest2 =>
        if dashDash.isPrefixOf v then .error ("Missing value for argument: ".data ++ arg)
        else
          let key := arg.drop 2
          if key = "project-id".data then parseArgsLoop { cfg with projectId := v } rest2
          else if key = "location".data then parseArgsLoop { cfg with location := some v } rest2
          else if key = "key-file".data then parseArgsLoop { cfg with keyFilename := some v } rest2
          else .error ("Unknown argument: ".data ++ arg)

/-- Embedding of `parseArgs` (src/index.ts lines 70-113); the initial config
has `location: 'US'` (line 74). -/
def parseArgs (args : List Str) : Except Str ServerConfig :=
  match parseArgsLoop ⟨[], some "US".data, none⟩ args with
  | .error e => .error e
  | .ok cfg => if cfg.projectId = [] then .error usageMsg else .ok cfg

/-! ### The Catalog Resource Mapper (src/index.ts lines 157, 183-228) -/

structure FieldDesc where
  name : Str
  fieldType : Str
deriving DecidableEq, Repr

structure TableEnt where
  id : Str
  typ : Str
  fields : List FieldDesc
deriving DecidableEq, Repr

structure DatasetEnt where
  id : Str
  tables : List TableEnt
deriving DecidableEq, Repr

/-- Modelled warehouse catalog (the external warehouse client of spec
section 6 exposes it via `getDatasets`, `getTables`, `getMetadata`). -/
abbrev Warehouse := List DatasetEnt

def SCHEMA_PATH : Str := "schema".data

/-- Resource URI built at src/index.ts line 189:
resolution of the relative reference `<dataset>/<table>/schema` against the
base `bigquery://<project>` by the WHATWG URL parser, modelled for path
segments free of URL-special characters. -/
def mkResourceUri (p d t : Str) : Str :=
  "bigquery://".data ++ p ++ '/' :: d ++ '/' :: t ++ '/' :: SCHEMA_PATH

structure ResourceDesc where
  uri : Str
  mimeType : Str
  name : Str
deriving DecidableEq, Repr

def resourceTypeOf (tb : TableEnt) : Str :=
  if tb.typ = "VIEW".data then "view".data else "table".data

/-- Embedding of the `ListResourcesRequestSchema` handler (lines 170-202):
one resource per table or view, in catalog enumeration order. -/
def listResources (p : Str) (w : Warehouse) : List ResourceDesc :=
  (w.map (fun ds => ds.tables.map (fun tb =>
    ⟨mkResourceUri p ds.id tb.id,
     "application/json".data,
     '"' :: (ds.id ++ '.' :: tb.id) ++ '"' :: ' ' :: (resourceTypeOf tb ++ ' ' :: SCHEMA_PATH)⟩))).flatten

/-- Pathname of a URI `scheme://authority/path`, as `new URL(...).pathname`
produces it for the non-special `bigquery:` scheme. -/
def urlPathname (u : Str) : Str :=
  match u.dropWhile (fun c => c ≠ ':') with
  | c1 :: c2 :: c3 :: rest =>
    if c1 = ':' ∧ c2 = '/' ∧ c3 = '/' then rest.dropWhile (fun c => c ≠ '/')
    else []
  | _ => []

/-- Split on `'/'`, with ECMAScript `String.prototype.split` semantics
(the empty string yields one empty piece). -/
def splitSlash : Str → List Str
  | [] => [[]]
  | c :: rest =>
    if c = '/' then [] :: splitSlash rest
    else
      match splitSlash rest with
      | [] => [[c]]
      | h :: t => (c :: h) :: t

def invalidUriMsg : Str := "Invalid resource URI".data

/-- URI parsing part of the `ReadResourceRequestSchema` handler (lines
204-213): three `pop()` calls on the split pathname, then the check that the
trailing segment is the literal `schema` marker; the popped dataset and
table components are returned as they are (possibly absent). -/
def parseResourceUri (uri : Str) : Except Str (Option Str × Option Str) :=
  let segs := splitSlash (urlPathname uri)
  let schemaSeg := segs.getLast?
  let rest1 := segs.dropLast
  let tableId := rest1.getLast?
  let rest2 := rest1.dropLast
  let datasetId := rest2.getLast?
  if schemaSeg = some SCHEMA_PATH then .ok (datasetId, tableId)
  else .error invalidUriMsg

/-- Modelled metadata fetch
`bigquery.dataset(datasetId!).table(tableId!).getMetadata()` (lines
215-217): the external warehouse client looks the table up by identifiers
and fails on a missing identifier or unknown entity. -/
def fetchMetadata (w : Warehouse) (d t : Option Str) : Except Str TableEnt :=
  match d, t with
  | some d, some t =>
    match w.find? (fun e => e.id == d) with
    | some ds =>
      match ds.tables.find? (fun tb => tb.id == t) with
      | some tb => .ok tb
      | none => .error "Not found: Table".data
    | none => .error "Not found: Dataset".data
  | _, _ => .error "Invalid id".data

/-- Embedding of the `ReadResourceRequestSchema` handler (lines 204-228),
returning the field-descriptor list of the addressed table. -/
def readResource (w : Warehouse) (uri : Str) : Except Str (List FieldDesc) :=
  match parseResourceUri uri with
  | .error e => .error e
  | .ok (d, t) => (fetchMetadata w d t).map TableEnt.fields

/-! ### Specification-side predicates (spec sections 4.3 and 4.4) -/

/-- Whole-word, case-insensitive occurrence of the token `tok` in `sql`:
the token is bounded by non-word characters or string edges (spec 4.3). -/
def IsWholeWordOcc (sql tok : Str) : Prop :=
  ∃ pre mid suf, sql = pre ++ mid ++ suf ∧ ciEqL mid tok = true ∧
    (∀ c, pre.getLast? = some c → isWordChar c = false) ∧
    (∀ c, suf.head? = some c → isWordChar c = false)

/-- Occurrence shape `FROM <dataset>.INFORMATION_SCHEMA.TABLES` with a
dataset prefix (spec 4.4): keyword, whitespace, word-character dataset,
dot, catalog literal, all case-insensitive. -/
def IsPrefixedMatch (m d : Str) : Prop :=
  ∃ f ws lit, m = f ++ ws ++ d ++ '.' :: lit ∧ ciEqL f fromChars = true ∧
    ws ≠ [] ∧ (∀ c ∈ ws, isSpaceChar c = true) ∧
    d ≠ [] ∧ (∀ c ∈ d, isWordChar c = true) ∧ ciEqL lit infoTablesChars = true

/-- Occurrence shape `FROM INFORMATION_SCHEMA.TABLES` with no dataset
prefix (spec 4.4). -/
def IsUnprefixedMatch (m : Str) : Prop :=
  ∃ f ws lit, m = f ++ ws ++ lit ∧ ciEqL f fromChars = true ∧
    ws ≠ [] ∧ (∀ c ∈ ws, isSpaceChar c = true) ∧ ciEqL lit infoTablesChars = true

def IsCatalogMatch (m : Str) : Prop := (∃ d, IsPrefixedMatch m d) ∨ IsUnprefixedMatch m

/-- One-pass, leftmost rewriting relation written from the words of spec
section 4.4: unmatched text is copied byte-for-byte (`copy` requires that
no catalog reference starts at that character), and every match with a
dataset prefix is replaced by the fully qualified, delimiter-quoted form. -/
inductive QualRewrites (p : Str) : Str → Str → Prop
  | nil : QualRewrites p [] []
  | copy (c : Char) (s t : Str) :
      (∀ m rest, c :: s = m ++ rest → ¬ IsCatalogMatch m) →
      QualRewrites p s t → QualRewrites p (c :: s) (c :: t)
  | rw (m d rest t : Str) :
      IsPrefixedMatch m d → QualRewrites p rest t →
      QualRewrites p (m ++ rest) (rwStr p d ++ t)

/-- Project-identifier character class enforced by `validateConfig`
(src/index.ts line 65): `^[a-z0-9-]+$`. -/
def isProjChar (c : Char) : Bool :=
  decide (97 ≤ c.toNat ∧ c.toNat ≤ 122) || decide (48 ≤ c.toNat ∧ c.toNat ≤ 57) ||
  decide (c.toNat = 45)

def projIdOk (p : Str) : Prop := p ≠ [] ∧ ∀ c ∈ p, isProjChar c = true

instance (p : Str) : Decidable (projIdOk p) := by
  unfold projIdOk
  infer_instance

/-- Catalog identifiers that survive the WHATWG URL resolution unchanged
(letters, digits, underscore, hyphen — the BigQuery identifier set). -/
def urlSafeId (s : Str) : Prop := s ≠ [] ∧ ∀ c ∈ s, (isWordChar c = true ∨ c = '-')

instance (s : Str) : Decidable (urlSafeId s) := by
  unfold urlSafeId
  infer_instance

/-- Head shape shared by every string at which the catalog pattern can
match: a case-insensitive `FROM` followed by a whitespace character.  These
are the probe characters used by the overlap lemma `match_within_prefix`. -/
def FromWsShape (w : Str) : Prop :=
  ∃ a b c d e w2, w = a :: b :: c :: d :: e :: w2 ∧ ciMatch a 'F' = true ∧
    ciMatch b 'R' = true ∧ ciMatch c 'O' = true ∧ ciMatch d 'M' = true ∧
    isSpaceChar e = true

/-! ### Character-class facts -/

theorem char_toNat_inj {c d : Char} (h : c.toNat = d.toNat) : c = d := by
  cases c; cases d
  simp [Char.toNat] at h
  congr 1
  exact UInt32.ext h

theorem isWordChar_iff {c : Char} : isWordChar c = true ↔
    ((65 ≤ c.toNat ∧ c.toNat ≤ 90) ∨ (97 ≤ c.toNat ∧ c.toNat ≤ 122) ∨
     (48 ≤ c.toNat ∧ c.toNat ≤ 57) ∨ c.toNat = 95) := by
  simp only [isWordChar, Bool.or_eq_true, decide_eq_true_eq]
  omega

theorem isSpaceChar_iff {c : Char} : isSpaceChar c = true ↔
    (c.toNat = 32 ∨ (9 ≤ c.toNat ∧ c.toNat ≤ 13) ∨ c.toNat = 160 ∨ c.toNat = 0x1680 ∨
     (0x2000 ≤ c.toNat ∧ c.toNat ≤ 0x200a) ∨ c.toNat = 0x2028 ∨ c.toNat = 0x2029 ∨
     c.toNat = 0x202f ∨ c.toNat = 0x205f ∨ c.toNat = 0x3000 ∨ c.toNat = 0xfeff) := by
  simp only [isSpaceChar, Bool.or_eq_true, decide_eq_true_eq]
  omega

theorem ciMatch_iff {c p : Char} : ciMatch c p = true ↔
    (c.toNat = p.toNat ∨ (c.toNat = p.toNat + 32 ∧ 65 ≤ p.toNat ∧ p.toNat ≤ 90)) := by
  simp only [ciMatch, Bool.or_eq_true, Bool.and_eq_true, decide_eq_true_eq]
  omega

theorem isProjChar_iff {c : Char} : isProjChar c = true ↔
    ((97 ≤ c.toNat ∧ c.toNat ≤ 122) ∨ (48 ≤ c.toNat ∧ c.toNat ≤ 57) ∨ c.toNat = 45) := by
  simp only [isProjChar, Bool.or_eq_true, decide_eq_true_eq]
  omega

theorem word_not_space {c : Char} (h : isWordChar c = true) : isSpaceChar c = false := by
  rw [isWordChar_iff] at h
  rw [← Bool.not_eq_true, isSpaceChar_iff]
  omega

theorem proj_not_space {c : Char} (h : isProjChar c = true) : isSpaceChar c = false := by
  rw [isProjChar_iff] at h
  rw [← Bool.not_eq_true, isSpaceChar_iff]
  omega

/-! ### Case-insensitive string matching facts -/

theorem ciEqL_length {l pat : Str} (h : ciEqL l pat = true) : l.length = pat.length := by
  induction l generalizing pat with
  | nil =>
    cases pat with
    | nil => rfl
    | cons p ps => simp [ciEqL] at h
  | cons c cs ih =>
    cases pat with
    | nil => simp [ciEqL] at h
    | cons p ps =>
      simp only [ciEqL, Bool.and_eq_true] at h
      simp [ih h.2]

theorem ciEqL_nil_iff {l : Str} : ciEqL l [] = true ↔ l = [] := by
  cases l <;> simp [ciEqL]

theorem ciEqL_cons_iff {l : Str} {p : Char} {ps : Str} :
    ciEqL l (p :: ps) = true ↔
      ∃ c cs, l = c :: cs ∧ ciMatch c p = true ∧ ciEqL cs ps = true := by
  cases l with
  | nil => simp [ciEqL]
  | cons c cs =>
    simp only [ciEqL, Bool.and_eq_true]
    constructor
    · rintro ⟨h1, h2⟩; exact ⟨c, cs, rfl, h1, h2⟩
    · rintro ⟨c', cs', heq, h1, h2⟩
      cases heq
      exact ⟨h1, h2⟩

theorem ciEqL_append_split {l p1 p2 : Str} (h : ciEqL l (p1 ++ p2) = true) :
    ∃ l1 l2, l = l1 ++ l2 ∧ ciEqL l1 p1 = true ∧ ciEqL l2 p2 = true := by
  induction p1 generalizing l with
  | nil => exact ⟨[], l, rfl, rfl, by simpa using h⟩
  | cons p ps ih =>
    rw [List.cons_append] at h
    rcases ciEqL_cons_iff.mp h with ⟨c, cs, rfl, hm, hrest⟩
    rcases ih hrest with ⟨l1, l2, rfl, h1, h2⟩
    exact ⟨c :: l1, l2, rfl, ciEqL_cons_iff.mpr ⟨c, l1, rfl, hm, h1⟩, h2⟩

theorem ciEqL_append {l1 l2 p1 p2 : Str} (h1 : ciEqL l1 p1 = true)
    (h2 : ciEqL l2 p2 = true) : ciEqL (l1 ++ l2) (p1 ++ p2) = true := by
  induction p1 generalizing l1 with
  | nil => rw [ciEqL_nil_iff.mp h1]; simpa
  | cons p ps ih =>
    rcases ciEqL_cons_iff.mp h1 with ⟨c, cs, rfl, hm, hr⟩
    exact ciEqL_cons_iff.mpr ⟨c, cs ++ l2, by simp, hm, ih hr⟩

theorem ciEqL_getElem {l pat : Str} (h : ciEqL l pat = true) :
    ∀ (j : Nat) (c : Char), l[j]? = some c →
      ∃ pc, pat[j]? = some pc ∧ ciMatch c pc = true := by
  induction l generalizing pat with
  | nil => intro j c hc; simp at hc
  | cons a as ih =>
    intro j c hc
    rcases pat with _ | ⟨p, ps⟩
    · simp [ciEqL] at h
    · simp only [ciEqL, Bool.and_eq_true] at h
      cases j with
      | zero =>
        simp only [List.getElem?_cons_zero, Option.some.injEq] at hc
        subst hc
        exact ⟨p, by simp, h.1⟩
      | succ n =>
        simp only [List.getElem?_cons_succ] at hc
        rcases ih h.2 n c hc with ⟨pc, h1, h2⟩
        exact ⟨pc, by simpa using h1, h2⟩

theorem ciStrip_sound {pat s m r : Str} (h : ciStrip pat s = some (m, r)) :
    s = m ++ r ∧ ciEqL m pat = true := by
  induction pat generalizing s m r with
  | nil =>
    simp only [ciStrip, Option.some.injEq, Prod.mk.injEq] at h
    obtain ⟨rfl, rfl⟩ := h
    exact ⟨rfl, rfl⟩
  | cons p ps ih =>
    cases s with
    | nil => simp [ciStrip] at h
    | cons c cs =>
      simp only [ciStrip] at h
      by_cases hm : ciMatch c p = true
      · rw [if_pos hm] at h
        cases hstrip : ciStrip ps cs with
        | none => rw [hstrip] at h; simp at h
        | some pr =>
          obtain ⟨m', r'⟩ := pr
          rw [hstrip] at h
          simp only [Option.map_some', Option.some.injEq, Prod.mk.injEq] at h
          obtain ⟨h1, h2⟩ := h
          subst h1
          subst h2
          obtain ⟨hcs, hEq⟩ := ih hstrip
          subst hcs
          exact ⟨rfl, by simp [ciEqL, hm, hEq]⟩
      · rw [if_neg hm] at h; simp at h

theorem ciStrip_complete {pat m : Str} (h : ciEqL m pat = true) (r : Str) :
    ciStrip pat (m ++ r) = some (m, r) := by
  induction pat generalizing m with
  | nil => rw [ciEqL_nil_iff.mp h]; rfl
  | cons p ps ih =>
    rcases ciEqL_cons_iff.mp h with ⟨c, cs, rfl, hm, hrest⟩
    simp [ciStrip, hm, ih hrest]

/-! ### List-indexing helpers -/

theorem getElem?_append_lt {α : Type} {x y : List α} {n : Nat} (h : n < x.length) :
    (x ++ y)[n]? = x[n]? := List.getElem?_append_left h

theorem getElem?_append_add {α : Type} (x y : List α) (n : Nat) :
    (x ++ y)[x.length + n]? = y[n]? := by
  rw [List.getElem?_append_right (by omega)]
  congr 1
  omega

/-! ### Safety-gate scanner facts -/

theorem ciEqL_nil_left {pat : Str} (h : ciEqL [] pat = true) : pat = [] := by
  cases pat with
  | nil => rfl
  | cons p ps => simp [ciEqL] at h

theorem forbiddenTokens_ne_nil {tok : Str} (h : tok ∈ forbiddenTokens) : tok ≠ [] := by
  fin_cases h <;> decide

theorem tokenHitAt_iff {s tok : Str} :
    tokenHitAt s tok = true ↔
      ∃ mid suf, s = mid ++ suf ∧ ciEqL mid tok = true ∧ wordBoundaryAfter suf = true := by
  unfold tokenHitAt
  constructor
  · intro h
    cases hs : ciStrip tok s with
    | none => rw [hs] at h; simp at h
    | some pr =>
      obtain ⟨m, r⟩ := pr
      rw [hs] at h
      obtain ⟨rfl, hEq⟩ := ciStrip_sound hs
      exact ⟨m, r, rfl, hEq, h⟩
  · rintro ⟨mid, suf, rfl, hEq, hb⟩
    rw [ciStrip_complete hEq]
    exact hb

theorem wordBoundaryAfter_iff {suf : Str} :
    wordBoundaryAfter suf = true ↔ ∀ c, suf.head? = some c → isWordChar c = false := by
  cases suf with
  | nil => simp [wordBoundaryAfter]
  | cons c r => simp [wordBoundaryAfter]

theorem scanTokens_iff {s : Str} : ∀ {pw : Bool},
    scanTokens pw s = true ↔
      ∃ tok ∈ forbiddenTokens, ∃ pre mid suf,
        s = pre ++ mid ++ suf ∧ ciEqL mid tok = true ∧
        (match pre.getLast? with
         | none => pw = false
         | some c => isWordChar c = false) ∧
        wordBoundaryAfter suf = true := by
  induction s with
  | nil =>
    intro pw
    simp only [scanTokens]
    constructor
    · intro h; exact absurd h (by simp)
    · rintro ⟨tok, htok, pre, mid, suf, heq, hci, -, -⟩
      obtain ⟨rfl, rfl, rfl⟩ :
          pre = [] ∧ mid = [] ∧ suf = [] := by
        have := heq.symm
        simp only [List.append_eq_nil] at this
        exact ⟨this.1.1, this.1.2, this.2⟩
      exact absurd (ciEqL_nil_left hci) (forbiddenTokens_ne_nil htok)
  | cons c rest ih =>
    intro pw
    simp only [scanTokens, Bool.or_eq_true, Bool.and_eq_true, Bool.not_eq_true',
      List.any_eq_true]
    constructor
    · rintro (⟨hpw, tok, htok, hhit⟩ | hscan)
      · rcases tokenHitAt_iff.mp hhit with ⟨mid, suf, heq, hci, hb⟩
        exact ⟨tok, htok, [], mid, suf, by simpa using heq, hci, by simpa using hpw, hb⟩
      · rcases ih.mp hscan with ⟨tok, htok, pre, mid, suf, heq, hci, hprev, hb⟩
        refine ⟨tok, htok, c :: pre, mid, suf, by simp [heq], hci, ?_, hb⟩
        cases pre with
        | nil => simpa using hprev
        | cons a pre2 => simpa using hprev
    · rintro ⟨tok, htok, pre, mid, suf, heq, hci, hprev, hb⟩
      cases pre with
      | nil =>
        left
        refine ⟨by simpa using hprev, tok, htok, ?_⟩
        exact tokenHitAt_iff.mpr ⟨mid, suf, by simpa using heq, hci, hb⟩
      | cons a pre2 =>
        right
        rw [List.cons_append, List.cons_append, List.cons.injEq] at heq
        obtain ⟨rfl, hrest⟩ := heq
        refine ih.mpr ⟨tok, htok, pre2, mid, suf, hrest, hci, ?_, hb⟩
        cases pre2 with
        | nil => simpa using hprev
        | cons b pre3 => simpa using hprev

theorem forbiddenPatternTest_iff {sql : Str} :
    forbiddenPatternTest sql = true ↔ ∃ tok ∈ forbiddenTokens, IsWholeWordOcc sql tok := by
  unfold forbiddenPatternTest
  rw [scanTokens_iff]
  constructor
  · rintro ⟨tok, htok, pre, mid, suf, heq, hci, hprev, hb⟩
    refine ⟨tok, htok, pre, mid, suf, heq, hci, ?_, wordBoundaryAfter_iff.mp hb⟩
    intro a ha
    cases hlast : pre.getLast? with
    | none => rw [hlast] at ha; cases ha
    | some b =>
      rw [hlast] at ha
      cases ha
      rw [hlast] at hprev
      exact hprev
  · rintro ⟨tok, htok, pre, mid, suf, heq, hci, hprev, hafter⟩
    refine ⟨tok, htok, pre, mid, suf, heq, hci, ?_, wordBoundaryAfter_iff.mpr hafter⟩
    cases hlast : pre.getLast? with
    | none => rfl
    | some b => exact hprev b hlast

/-! ### Resource-mapper facts -/

theorem dropWhile_head {α : Type} {p : α → Bool} {l : List α} {c : α} {t : List α}
    (h : l.dropWhile p = c :: t) : p c = false := by
  induction l with
  | nil => simp at h
  | cons a r ih =>
    by_cases ha : p a = true
    · rw [List.dropWhile_cons_of_pos ha] at h
      exact ih h
    · rw [List.dropWhile_cons_of_neg (by simpa using ha)] at h
      cases h
      simpa using ha

theorem splitSlash_ne_nil (l : Str) : splitSlash l ≠ [] := by
  induction l with
  | nil => simp [splitSlash]
  | cons c rest ih =>
    unfold splitSlash
    split
    · simp
    · cases h : splitSlash rest with
      | nil => exact absurd h ih
      | cons a t => simp

theorem splitSlash_cons (c : Char) (rest : Str) :
    splitSlash (c :: rest) =
      if c = '/' then [] :: splitSlash rest
      else
        match splitSlash rest with
        | [] => [[c]]
        | h :: t => (c :: h) :: t := rfl

theorem splitSlash_no_slash {xs : Str} (h : ∀ c ∈ xs, ¬ c = '/') :
    splitSlash xs = [xs] := by
  induction xs with
  | nil => rfl
  | cons c rest ih =>
    have hc : ¬ c = '/' := h c (by simp)
    have hrest : splitSlash rest = [rest] := ih (fun a ha => h a (by simp [ha]))
    rw [splitSlash_cons, if_neg hc, hrest]

theorem splitSlash_append {xs : Str} (h : ∀ c ∈ xs, ¬ c = '/') (ys : Str) :
    splitSlash (xs ++ '/' :: ys) = xs :: splitSlash ys := by
  induction xs with
  | nil => simp [splitSlash]
  | cons c rest ih =>
    have hc : ¬ c = '/' := h c (by simp)
    have hrest := ih (fun a ha => h a (by simp [ha]))
    rw [List.cons_append, splitSlash_cons, if_neg hc, hrest]

theorem urlPathname_head {u : Str} {c : Char} {t : Str} (h : urlPathname u = c :: t) :
    c = '/' := by
  unfold urlPathname at h
  split at h
  · split at h
    · have := dropWhile_head h
      simpa using this
    · simp at h
  · simp at h

theorem urlPathname_shape (u : Str) :
    urlPathname u = [] ∨ ∃ X, urlPathname u = '/' :: X := by
  cases hu : urlPathname u with
  | nil => exact Or.inl rfl
  | cons c t =>
    have hc := urlPathname_head hu
    subst hc
    exact Or.inr ⟨t, rfl⟩

theorem find_id_of_mem {α : Type} (f : α → Str) (l : List α) (x : α) (hmem : x ∈ l)
    (hnd : (l.map f).Nodup) : l.find? (fun e => f e == f x) = some x := by
  induction l with
  | nil => cases hmem
  | cons a t ih =>
    rcases List.mem_cons.mp hmem with rfl | hx
    · rw [List.find?_cons_of_pos _ (by simp)]
    · rw [List.map_cons, List.nodup_cons] at hnd
      have hne : (f a == f x) = false := by
        rw [beq_eq_false_iff_ne]
        intro heq
        exact hnd.1 (heq ▸ List.mem_map_of_mem f hx)
      rw [List.find?_cons_of_neg _ (by simp [hne])]
      exact ih hx hnd.2

theorem proj_chars_ne {p : Str} (hp : projIdOk p) {x : Char} (hx : isProjChar x = false) :
    ∀ c ∈ p, ¬ c = x := by
  intro c hc h
  subst h
  exact absurd (hp.2 _ hc) (by simp [hx])

theorem urlSafe_ne_slash {s : Str} (hs : urlSafeId s) : ∀ c ∈ s, ¬ c = '/' := by
  intro c hc h
  subst h
  rcases hs.2 _ hc with h2 | h2
  · exact absurd h2 (by decide)
  · exact absurd h2 (by decide)

theorem urlPathname_mkResourceUri {p d t : Str} (hp : projIdOk p) :
    urlPathname (mkResourceUri p d t) =
      '/' :: (d ++ ('/' :: (t ++ ('/' :: SCHEMA_PATH)))) := by
  have h2 : (mkResourceUri p d t).dropWhile (fun c => decide (c ≠ ':')) =
      ':' :: '/' :: '/' :: (p ++ ('/' :: (d ++ ('/' :: (t ++ ('/' :: SCHEMA_PATH)))))) := by
    have h1 : mkResourceUri p d t =
        "bigquery".data ++ (':' :: '/' :: '/' ::
          (p ++ ('/' :: (d ++ ('/' :: (t ++ ('/' :: SCHEMA_PATH))))))) := by
      simp [mkResourceUri, SCHEMA_PATH]
    rw [h1, List.dropWhile_append_of_pos (by decide),
      List.dropWhile_cons_of_neg (by decide)]
  have hpslash : ∀ a ∈ p, (fun c => decide (c ≠ '/')) a = true := by
    intro a ha
    have := proj_chars_ne hp (x := '/') (by decide) a ha
    simpa using this
  simp only [urlPathname, h2]
  rw [if_pos ⟨trivial, trivial, trivial⟩]
  rw [List.dropWhile_append_of_pos hpslash, List.dropWhile_cons_of_neg (by decide)]

theorem splitSlash_mkResourceUri {p d t : Str} (hp : projIdOk p)
    (hd : urlSafeId d) (ht : urlSafeId t) :
    splitSlash (urlPathname (mkResourceUri p d t)) = [[], d, t, SCHEMA_PATH] := by
  rw [urlPathname_mkResourceUri hp, splitSlash_cons, if_pos rfl]
  rw [splitSlash_append (urlSafe_ne_slash hd), splitSlash_append (urlSafe_ne_slash ht),
    splitSlash_no_slash (by decide)]

theorem parse_mkResourceUri {p d t : Str} (hp : projIdOk p)
    (hd : urlSafeId d) (ht : urlSafeId t) :
    parseResourceUri (mkResourceUri p d t) = .ok (some d, some t) := by
  unfold parseResourceUri
  rw [splitSlash_mkResourceUri hp hd ht]
  rfl

theorem mem_listResources {p : Str} {w : Warehouse} {ds : DatasetEnt} {tb : TableEnt}
    (hds : ds ∈ w) (htb : tb ∈ ds.tables) :
    mkResourceUri p ds.id tb.id ∈ (listResources p w).map ResourceDesc.uri := by
  rw [List.mem_map]
  refine ⟨⟨mkResourceUri p ds.id tb.id, "application/json".data,
    '"' :: (ds.id ++ '.' :: tb.id) ++ '"' :: ' ' :: (resourceTypeOf tb ++ ' ' :: SCHEMA_PATH)⟩,
    ?_, rfl⟩
  rw [listResources, List.mem_flatten]
  refine ⟨_, List.mem_map_of_mem _ hds, List.mem_map_of_mem _ htb⟩

theorem fetchMetadata_found {w : Warehouse} {ds : DatasetEnt} {tb : TableEnt}
    (hds : ds ∈ w) (htb : tb ∈ ds.tables)
    (hnd : (w.map DatasetEnt.id).Nodup) (hndt : (ds.tables.map TableEnt.id).Nodup) :
    fetchMetadata w (some ds.id) (some tb.id) = .ok tb := by
  simp only [fetchMetadata, find_id_of_mem DatasetEnt.id w ds hds hnd,
    find_id_of_mem TableEnt.id ds.tables tb htb hndt]

theorem dropOccExample : IsWholeWordOcc "DROP TABLE sales.orders".data "DROP".data := by
  refine ⟨[], "DROP".data, ' ' :: "TABLE sales.orders".data, by decide, by decide, ?_, ?_⟩
  · intro c h
    exact Option.noConfusion h
  · intro c h
    have h2 : some ' ' = some c := h
    cases h2
    decide

/-! ### Qualifier-scanner facts -/

theorem ciMatch_cases {c p : Char} (h : ciMatch c p = true) :
    c = p ∨ (c.toNat = p.toNat + 32 ∧ 65 ≤ p.toNat ∧ p.toNat ≤ 90) := by
  rw [ciMatch_iff] at h
  rcases h with h | h
  · exact Or.inl (char_toNat_inj h)
  · exact Or.inr h

theorem ciMatch_concrete {c p q : Char} (h : ciMatch c p = true)
    (hq : q.toNat = p.toNat + 32) : c = p ∨ c = q := by
  rcases ciMatch_cases h with h | ⟨h1, -, -⟩
  · exact Or.inl h
  · exact Or.inr (char_toNat_inj (h1.trans hq.symm))

theorem ciMatch_word {c p : Char} (h : ciMatch c p = true) (hp : isWordChar p = true) :
    isWordChar c = true := by
  rw [ciMatch_iff] at h
  rw [isWordChar_iff] at hp ⊢
  omega

theorem ciMatch_not_space {c p : Char} (h : ciMatch c p = true)
    (hp : isSpaceChar p = false) : isSpaceChar c = false := by
  rw [ciMatch_iff] at h
  rw [← Bool.not_eq_true, isSpaceChar_iff] at hp ⊢
  omega

theorem ciMatch_dot {c : Char} (h : ciMatch c '.' = true) : c = '.' := by
  rcases ciMatch_cases h with h | ⟨-, h2, -⟩
  · exact h
  · exact absurd h2 (by decide)

theorem ciEqL_mem {l pat : Str} (h : ciEqL l pat = true) :
    ∀ c ∈ l, ∃ pc ∈ pat, ciMatch c pc = true := by
  induction pat generalizing l with
  | nil =>
    rw [ciEqL_nil_iff.mp h]
    intro c hc
    cases hc
  | cons p ps ih =>
    rcases ciEqL_cons_iff.mp h with ⟨a, as, rfl, hm, hrest⟩
    intro c hc
    rcases List.mem_cons.mp hc with rfl | hc2
    · exact ⟨p, by simp, hm⟩
    · rcases ih hrest c hc2 with ⟨pc, hpc, hmc⟩
      exact ⟨pc, by simp [hpc], hmc⟩

theorem ciEqL_all_word {l pat : Str} (h : ciEqL l pat = true)
    (hpat : ∀ pc ∈ pat, isWordChar pc = true) : ∀ c ∈ l, isWordChar c = true := by
  intro c hc
  rcases ciEqL_mem h c hc with ⟨pc, hpc, hmc⟩
  exact ciMatch_word hmc (hpat pc hpc)

theorem ciEqL_no_space {l pat : Str} (h : ciEqL l pat = true)
    (hpat : ∀ pc ∈ pat, isSpaceChar pc = false) : ∀ c ∈ l, isSpaceChar c = false := by
  intro c hc
  rcases ciEqL_mem h c hc with ⟨pc, hpc, hmc⟩
  exact ciMatch_not_space hmc (hpat pc hpc)

theorem altPrefixed_sound {mF ws r2 m : Str} {dOpt : Option Str} {r : Str}
    (h : altPrefixed mF ws r2 = some (m, dOpt, r)) :
    ∃ mL, dOpt = some (r2.takeWhile isWordChar) ∧
      r2.takeWhile isWordChar ≠ [] ∧
      r2.dropWhile isWordChar = '.' :: (mL ++ r) ∧
      ciEqL mL infoTablesChars = true ∧
      m = mF ++ ws ++ r2.takeWhile isWordChar ++ '.' :: mL := by
  simp only [altPrefixed] at h
  split at h
  next c r4 hdw =>
    split at h
    next hrun => cases h
    next hrun =>
      split at h
      next hc =>
        subst hc
        split at h
        next mL rest hstrip =>
          simp only [Option.some.injEq, Prod.mk.injEq] at h
          obtain ⟨hm, hd, hr⟩ := h
          subst hm
          subst hr
          obtain ⟨hr4, hEq⟩ := ciStrip_sound hstrip
          subst hr4
          exact ⟨mL, hd.symm, by simpa using hrun, hdw, hEq, rfl⟩
        next hstrip => cases h
      next hc => cases h
  next hdw => cases h

theorem altPlain_sound {mF ws r2 m : Str} {dOpt : Option Str} {r : Str}
    (h : altPlain mF ws r2 = some (m, dOpt, r)) :
    ∃ mL, dOpt = none ∧ r2 = mL ++ r ∧ ciEqL mL infoTablesChars = true ∧
      m = mF ++ ws ++ mL := by
  simp only [altPlain] at h
  split at h
  next mL rest hstrip =>
    simp only [Option.some.injEq, Prod.mk.injEq] at h
    obtain ⟨hm, hd, hr⟩ := h
    subst hm
    subst hr
    obtain ⟨hr2, hEq⟩ := ciStrip_sound hstrip
    exact ⟨mL, hd.symm, hr2, hEq, rfl⟩
  next hstrip => cases h

theorem matchQualAt_sound {s m : Str} {dOpt : Option Str} {r : Str}
    (h : matchQualAt s = some (m, dOpt, r)) :
    s = m ++ r ∧
      (match dOpt with
       | some d => IsPrefixedMatch m d
       | none => IsUnprefixedMatch m) := by
  simp only [matchQualAt] at h
  split at h
  next hF => cases h
  next mF r1 hF =>
    obtain ⟨hs1, hFEq⟩ := ciStrip_sound hF
    split at h
    next hw => cases h
    next hw =>
      set WS := r1.takeWhile isSpaceChar with hWSdef
      set DW := r1.dropWhile isSpaceChar with hDWdef
      have hws_ne : WS ≠ [] := by simpa [hWSdef] using hw
      have hws_sp : ∀ c ∈ WS, isSpaceChar c = true :=
        fun c hc => List.mem_takeWhile_imp (hWSdef ▸ hc)
      have hr1 : r1 = WS ++ DW :=
        (List.takeWhile_append_dropWhile isSpaceChar r1).symm
      split at h
      next res hA =>
        obtain rfl : res = (m, dOpt, r) := by simpa using h
        rcases altPrefixed_sound hA with ⟨mL, hdOpt, hrun_ne, hdw, hLEq, hm⟩
        subst hdOpt
        subst hm
        set RUN := DW.takeWhile isWordChar with hRUNdef
        have hrun_word : ∀ c ∈ RUN, isWordChar c = true :=
          fun c hc => List.mem_takeWhile_imp (hRUNdef ▸ hc)
        have hr2 : DW = RUN ++ '.' :: (mL ++ r) := by
          conv_lhs => rw [← List.takeWhile_append_dropWhile isWordChar DW]
          rw [hdw]
        have hTW : List.takeWhile isWordChar (RUN ++ '.' :: (mL ++ r)) = RUN := by
          rw [List.takeWhile_append_of_pos hrun_word, List.takeWhile_cons_of_neg (by decide)]
          simp
        constructor
        · rw [hs1, hr1, hr2, hTW]
          simp [List.append_assoc]
        · exact ⟨mF, WS, mL, by simp [List.append_assoc], hFEq,
            hws_ne, hws_sp, hrun_ne, hrun_word, hLEq⟩
      next hA =>
        rcases altPlain_sound h with ⟨mL, hdOpt, hr2, hLEq, hm⟩
        subst hdOpt
        subst hm
        constructor
        · rw [hs1, hr1, hr2]
          simp [List.append_assoc]
        · exact ⟨mF, WS, mL, rfl, hFEq, hws_ne, hws_sp, hLEq⟩

theorem isEmpty_false {l : Str} (h : l ≠ []) : l.isEmpty = false := by
  cases l with
  | nil => exact absurd rfl h
  | cons a t => rfl

theorem matchQualAt_prefixed {m d : Str} (hm : IsPrefixedMatch m d) (r : Str) :
    matchQualAt (m ++ r) = some (m, some d, r) := by
  obtain ⟨f, ws, lit, rfl, hf, hws_ne, hws_sp, hd_ne, hd_word, hlit⟩ := hm
  obtain ⟨dc, dtl, rfl⟩ := List.exists_cons_of_ne_nil hd_ne
  have hsp_dc : isSpaceChar dc = false := word_not_space (hd_word dc (by simp))
  have hassoc : (f ++ ws ++ (dc :: dtl) ++ '.' :: lit) ++ r =
      f ++ (ws ++ (dc :: (dtl ++ '.' :: (lit ++ r)))) := by
    simp [List.append_assoc]
  have h1 : ciStrip fromChars (f ++ (ws ++ (dc :: (dtl ++ '.' :: (lit ++ r))))) =
      some (f, ws ++ (dc :: (dtl ++ '.' :: (lit ++ r)))) := ciStrip_complete hf _
  have h2 : (ws ++ (dc :: (dtl ++ '.' :: (lit ++ r)))).takeWhile isSpaceChar = ws := by
    rw [List.takeWhile_append_of_pos hws_sp,
      List.takeWhile_cons_of_neg (by simp [hsp_dc])]
    simp
  have h3 : (ws ++ (dc :: (dtl ++ '.' :: (lit ++ r)))).dropWhile isSpaceChar =
      dc :: (dtl ++ '.' :: (lit ++ r)) := by
    rw [List.dropWhile_append_of_pos hws_sp,
      List.dropWhile_cons_of_neg (by simp [hsp_dc])]
  have h4 : (dc :: (dtl ++ '.' :: (lit ++ r))).takeWhile isWordChar = dc :: dtl := by
    rw [← List.cons_append, List.takeWhile_append_of_pos hd_word,
      List.takeWhile_cons_of_neg (by decide)]
    simp
  have h5 : (dc :: (dtl ++ '.' :: (lit ++ r))).dropWhile isWordChar =
      '.' :: (lit ++ r) := by
    rw [← List.cons_append, List.dropWhile_append_of_pos hd_word,
      List.dropWhile_cons_of_neg (by decide)]
  have h6 : ciStrip infoTablesChars (lit ++ r) = some (lit, r) := ciStrip_complete hlit r
  rw [hassoc]
  simp only [matchQualAt, h1, h2, h3, isEmpty_false hws_ne]
  simp only [altPrefixed, h4, h5, h6, isEmpty_false (List.cons_ne_nil dc dtl)]
  simp [List.append_assoc]

theorem matchQualAt_unprefixed {m : Str} (hm : IsUnprefixedMatch m) (r : Str) :
    matchQualAt (m ++ r) = some (m, none, r) := by
  obtain ⟨f, ws, lit, rfl, hf, hws_ne, hws_sp, hlit⟩ := hm
  have hsplit : infoTablesChars = "INFORMATION_SCHEMA".data ++ '.' :: "TABLES".data := by
    decide
  obtain ⟨l18, lrest, rfl, h18, hrest⟩ := ciEqL_append_split (hsplit ▸ hlit)
  obtain ⟨cdot, l6, rfl, hcdot, h6'⟩ := ciEqL_cons_iff.mp hrest
  obtain rfl : cdot = '.' := ciMatch_dot hcdot
  have h18_word : ∀ c ∈ l18, isWordChar c = true :=
    ciEqL_all_word h18 (by decide)
  have h18_ne : l18 ≠ [] := by
    intro he
    have := ciEqL_length h18
    rw [he] at this
    simp at this
  obtain ⟨c6, l5, rfl, hc6, h5x⟩ := ciEqL_cons_iff.mp h6'
  have hlit2 : ciEqL (l18 ++ '.' :: (c6 :: l5)) infoTablesChars = true := by
    rw [hsplit]
    exact ciEqL_append h18 (ciEqL_cons_iff.mpr ⟨'.', c6 :: l5, rfl, by decide,
      ciEqL_cons_iff.mpr ⟨c6, l5, rfl, hc6, h5x⟩⟩)
  obtain ⟨a18, t18, rfl⟩ := List.exists_cons_of_ne_nil h18_ne
  have hsp_a18 : isSpaceChar a18 = false := word_not_space (h18_word a18 (by simp))
  have hassoc : (f ++ ws ++ ((a18 :: t18) ++ '.' :: (c6 :: l5))) ++ r =
      f ++ (ws ++ (a18 :: (t18 ++ '.' :: ((c6 :: l5) ++ r)))) := by
    simp [List.append_assoc]
  have h1 : ciStrip fromChars (f ++ (ws ++ (a18 :: (t18 ++ '.' :: ((c6 :: l5) ++ r))))) =
      some (f, ws ++ (a18 :: (t18 ++ '.' :: ((c6 :: l5) ++ r)))) := ciStrip_complete hf _
  have h2 : (ws ++ (a18 :: (t18 ++ '.' :: ((c6 :: l5) ++ r)))).takeWhile isSpaceChar =
      ws := by
    rw [List.takeWhile_append_of_pos hws_sp,
      List.takeWhile_cons_of_neg (by simp [hsp_a18])]
    simp
  have h3 : (ws ++ (a18 :: (t18 ++ '.' :: ((c6 :: l5) ++ r)))).dropWhile isSpaceChar =
      a18 :: (t18 ++ '.' :: ((c6 :: l5) ++ r)) := by
    rw [List.dropWhile_append_of_pos hws_sp,
      List.dropWhile_cons_of_neg (by simp [hsp_a18])]
  have h4 : (a18 :: (t18 ++ '.' :: ((c6 :: l5) ++ r))).takeWhile isWordChar =
      a18 :: t18 := by
    rw [← List.cons_append, List.takeWhile_append_of_pos h18_word,
      List.takeWhile_cons_of_neg (by decide)]
    simp
  have h5 : (a18 :: (t18 ++ '.' :: ((c6 :: l5) ++ r))).dropWhile isWordChar =
      '.' :: ((c6 :: l5) ++ r) := by
    rw [← List.cons_append, List.dropWhile_append_of_pos h18_word,
      List.dropWhile_cons_of_neg (by decide)]
  have hc6I : ciMatch c6 'I' = false := by
    rcases ciMatch_concrete hc6 (by decide : ('t' : Char).toNat = ('T' : Char).toNat + 32)
      with rfl | rfl <;> decide
  have hAP : ciStrip infoTablesChars ((c6 :: l5) ++ r) = none := by
    rw [show infoTablesChars = 'I' :: "NFORMATION_SCHEMA.TABLES".data from by decide]
    simp [ciStrip, hc6I]
  have h6 : ciStrip infoTablesChars (a18 :: (t18 ++ '.' :: ((c6 :: l5) ++ r))) =
      some ((a18 :: t18) ++ '.' :: (c6 :: l5), r) := by
    have hcc := ciStrip_complete hlit2 r
    rw [show ((a18 :: t18) ++ '.' :: (c6 :: l5)) ++ r =
      a18 :: (t18 ++ '.' :: ((c6 :: l5) ++ r)) from by simp [List.append_assoc]] at hcc
    exact hcc
  rw [hassoc]
  simp only [matchQualAt, h1, h2, h3, isEmpty_false hws_ne]
  simp only [altPrefixed, h4, h5, hAP, isEmpty_false (List.cons_ne_nil a18 t18)]
  simp only [altPlain, h6]
  simp [List.append_assoc]

theorem ciMatch_inv_F {a pc : Char} (hm : ciMatch a pc = true) (ha : a = 'F' ∨ a = 'f') :
    pc = 'F' ∨ pc = 'f' := by
  have h70 : ('F' : Char).toNat = 70 := by decide
  have h102 : ('f' : Char).toNat = 102 := by decide
  have hA : a.toNat = 70 ∨ a.toNat = 102 := by
    rcases ha with rfl | rfl
    · exact Or.inl h70
    · exact Or.inr h102
  rw [ciMatch_iff] at hm
  have hor : pc.toNat = 70 ∨ pc.toNat = 102 := by omega
  rcases hor with h | h
  · exact Or.inl (char_toNat_inj (h.trans h70.symm))
  · exact Or.inr (char_toNat_inj (h.trans h102.symm))

theorem litF_unique {j : Nat} {pc : Char} (hpc : infoTablesChars[j]? = some pc)
    (hin : pc = 'F' ∨ pc = 'f') : j = 2 := by
  have hlen : infoTablesChars.length = 25 := by decide
  have hj : j < 25 := by
    by_contra hge
    rw [List.getElem?_eq_none_iff.mpr (by omega)] at hpc
    cases hpc
  have hkey : ∀ i ∈ List.range 25,
      (match infoTablesChars[i]? with
       | some c => (!(c == 'F' || c == 'f')) || (i == 2)
       | none => true) = true := by decide
  have hx := hkey j (List.mem_range.mpr hj)
  rw [hpc] at hx
  rcases hin with rfl | rfl <;> simpa using hx

theorem lit_no_space {j : Nat} {pc : Char} (hpc : infoTablesChars[j]? = some pc) :
    isSpaceChar pc = false := by
  have hall : ∀ c ∈ infoTablesChars, isSpaceChar c = false := by decide
  exact hall pc (List.getElem?_mem hpc)

theorem litO3 : infoTablesChars[3]? = some 'O' := by decide

theorem k_in_tail {x s f ws tail2 r : Str} {a : Char}
    (hx1 : 1 ≤ x.length)
    (hs3 : s = f ++ (ws ++ (tail2 ++ r)))
    (hlf : f.length = 4)
    (fCI : ciEqL f fromChars = true)
    (hws_sp : ∀ c ∈ ws, isSpaceChar c = true)
    (hw0 : s[x.length]? = some a)
    (hA : ciMatch a 'F' = true)
    (hklt : x.length < 4 + ws.length + tail2.length) :
    4 + ws.length ≤ x.length := by
  by_contra hcon
  push_neg at hcon
  have haf : a = 'F' ∨ a = 'f' :=
    ciMatch_concrete hA (by decide : ('f' : Char).toNat = ('F' : Char).toNat + 32)
  rcases Nat.lt_or_ge x.length 4 with h4 | h4
  · have hfk : f[x.length]? = some a := by
      rw [hs3] at hw0
      rwa [getElem?_append_lt (by omega)] at hw0
    obtain ⟨pc, hpcF, hma⟩ := ciEqL_getElem fCI _ _ hfk
    have hcase : x.length = 1 ∨ x.length = 2 ∨ x.length = 3 := by omega
    rcases hcase with hkeq | hkeq | hkeq <;> rw [hkeq] at hpcF
    · rw [show fromChars[1]? = some 'R' from by decide] at hpcF
      obtain rfl := Option.some.inj hpcF
      rcases haf with rfl | rfl <;> exact absurd hma (by decide)
    · rw [show fromChars[2]? = some 'O' from by decide] at hpcF
      obtain rfl := Option.some.inj hpcF
      rcases haf with rfl | rfl <;> exact absurd hma (by decide)
    · rw [show fromChars[3]? = some 'M' from by decide] at hpcF
      obtain rfl := Option.some.inj hpcF
      rcases haf with rfl | rfl <;> exact absurd hma (by decide)
  · have hwsk : ws[x.length - 4]? = some a := by
      rw [hs3] at hw0
      rw [show x.length = f.length + (x.length - 4) from by omega] at hw0
      rw [getElem?_append_add] at hw0
      rwa [getElem?_append_lt (by omega)] at hw0
    have hsp := hws_sp a (List.getElem?_mem hwsk)
    rcases haf with rfl | rfl <;> exact absurd hsp (by decide)

theorem match_within_prefix {x : Str} {a b c d e : Char} {w' s : Str}
    (hx : x ≠ []) (hsw : s = x ++ (a :: b :: c :: d :: e :: w'))
    (hA : ciMatch a 'F' = true) (hB : ciMatch b 'R' = true) (hC : ciMatch c 'O' = true)
    (hD : ciMatch d 'M' = true) (hE : isSpaceChar e = true)
    {m : Str} {dOpt : Option Str} {r : Str}
    (h : matchQualAt s = some (m, dOpt, r)) : m.length ≤ x.length := by
  have hx1 : 1 ≤ x.length := List.length_pos.mpr hx
  obtain ⟨hs2, hshape⟩ := matchQualAt_sound h
  have hw0 : s[x.length]? = some a := by
    rw [hsw]
    simpa using getElem?_append_add x (a :: b :: c :: d :: e :: w') 0
  have hw1 : s[x.length + 1]? = some b := by
    rw [hsw, getElem?_append_add]
    simp
  have hw4 : s[x.length + 4]? = some e := by
    rw [hsw, getElem?_append_add]
    simp
  have hbrf : b = 'R' ∨ b = 'r' :=
    ciMatch_concrete hB (by decide : ('r' : Char).toNat = ('R' : Char).toNat + 32)
  by_contra hle
  push_neg at hle
  cases dOpt with
  | none =>
    obtain ⟨f, ws, lit, hm, hf, hws_ne, hws_sp, hlit⟩ := hshape
    have hlf : f.length = 4 := by
      rw [ciEqL_length hf]
      decide
    have hllit : lit.length = 25 := by
      rw [ciEqL_length hlit]
      decide
    have hmlen : m.length = 4 + ws.length + 25 := by
      rw [hm]
      simp only [List.length_append, List.length_cons, hlf, hllit]
      try omega
    have hs3 : s = f ++ (ws ++ (lit ++ r)) := by
      rw [hs2, hm]
      simp [List.append_assoc]
    have htail : 4 + ws.length ≤ x.length :=
      k_in_tail hx1 hs3 hlf hf hws_sp hw0 hA (by omega)
    rw [hs3] at hw0
    rw [show x.length = f.length + (x.length - 4) from by omega] at hw0
    rw [getElem?_append_add] at hw0
    rw [show x.length - 4 = ws.length + (x.length - 4 - ws.length) from by omega] at hw0
    rw [getElem?_append_add] at hw0
    rw [getElem?_append_lt (show x.length - 4 - ws.length < lit.length from by omega)] at hw0
    obtain ⟨pc, hpcL, hma⟩ := ciEqL_getElem hlit _ _ hw0
    have hj2 : x.length - 4 - ws.length = 2 :=
      litF_unique hpcL (ciMatch_inv_F hma
        (ciMatch_concrete hA (by decide : ('f' : Char).toNat = ('F' : Char).toNat + 32)))
    rw [hs3] at hw1
    rw [show x.length + 1 = f.length + (x.length + 1 - 4) from by omega] at hw1
    rw [getElem?_append_add] at hw1
    rw [show x.length + 1 - 4 = ws.length + 3 from by omega] at hw1
    rw [getElem?_append_add] at hw1
    rw [getElem?_append_lt (show 3 < lit.length from by omega)] at hw1
    obtain ⟨pc2, hpcL2, hmb⟩ := ciEqL_getElem hlit _ _ hw1
    rw [litO3] at hpcL2
    obtain rfl := Option.some.inj hpcL2
    rcases hbrf with rfl | rfl <;> exact absurd hmb (by decide)
  | some d0 =>
    obtain ⟨f, ws, lit, hm, hf, hws_ne, hws_sp, hd0_ne, hd0_word, hlit⟩ := hshape
    have hlf : f.length = 4 := by
      rw [ciEqL_length hf]
      decide
    have hllit : lit.length = 25 := by
      rw [ciEqL_length hlit]
      decide
    have hmlen : m.length = 4 + ws.length + d0.length + 26 := by
      rw [hm]
      simp only [List.length_append, List.length_cons, hlf, hllit]
      try omega
    have hs3 : s = f ++ (ws ++ ((d0 ++ '.' :: lit) ++ r)) := by
      rw [hs2, hm]
      simp [List.append_assoc]
    have hltail : (d0 ++ '.' :: lit).length = d0.length + 26 := by
      simp only [List.length_append, List.length_cons, hllit]
      try omega
    have htail : 4 + ws.length ≤ x.length :=
      k_in_tail hx1 hs3 hlf hf hws_sp hw0 hA (by omega)
    rw [hs3] at hw0
    rw [show x.length = f.length + (x.length - 4) from by omega] at hw0
    rw [getElem?_append_add] at hw0
    rw [show x.length - 4 = ws.length + (x.length - 4 - ws.length) from by omega] at hw0
    rw [getElem?_append_add] at hw0
    rw [getElem?_append_lt (show x.length - 4 - ws.length < (d0 ++ '.' :: lit).length
      from by omega)] at hw0
    rcases lt_trichotomy (x.length - 4 - ws.length) d0.length with hj | hj | hj
    · -- inside the dataset word run: four characters later there must be whitespace,
      -- but everything that far in the match is a word character, the dot or the literal
      rw [hs3] at hw4
      rw [show x.length + 4 = f.length + (x.length + 4 - 4) from by omega] at hw4
      rw [getElem?_append_add] at hw4
      rw [show x.length + 4 - 4 = ws.length + (x.length - 4 - ws.length + 4) from by omega]
        at hw4
      rw [getElem?_append_add] at hw4
      rw [getElem?_append_lt (show x.length - 4 - ws.length + 4 < (d0 ++ '.' :: lit).length
        from by omega)] at hw4
      rcases lt_trichotomy (x.length - 4 - ws.length + 4) d0.length with hj4 | hj4 | hj4
      · rw [getElem?_append_lt hj4] at hw4
        have := hd0_word e (List.getElem?_mem hw4)
        rw [word_not_space this] at hE
        cases hE
      · rw [hj4] at hw4
        have hdot : (d0 ++ '.' :: lit)[d0.length]? = some '.' := by
          rw [← Nat.add_zero d0.length, getElem?_append_add]
          simp
        rw [hdot] at hw4
        obtain rfl : e = '.' := (Option.some.inj hw4).symm
        exact absurd hE (by decide)
      · rw [show x.length - 4 - ws.length + 4 =
          d0.length + (x.length - 4 - ws.length + 4 - d0.length) from by omega] at hw4
        rw [getElem?_append_add] at hw4
        rw [show x.length - 4 - ws.length + 4 - d0.length =
          (x.length - 4 - ws.length + 4 - d0.length - 1) + 1 from by omega] at hw4
        rw [List.getElem?_cons_succ] at hw4
        obtain ⟨pc, hpc, hme⟩ := ciEqL_getElem hlit _ _ hw4
        rw [ciMatch_not_space hme (lit_no_space hpc)] at hE
        cases hE
    · -- exactly at the dot between dataset and literal
      rw [hj] at hw0
      have hdot : (d0 ++ '.' :: lit)[d0.length]? = some '.' := by
        rw [← Nat.add_zero d0.length, getElem?_append_add]
        simp
      rw [hdot] at hw0
      obtain rfl : a = '.' := (Option.some.inj hw0).symm
      exact absurd hA (by decide)
    · -- inside the catalog literal: only its F can match, and the next
      -- pattern character O cannot also match b, which is R-like
      rw [show x.length - 4 - ws.length =
        d0.length + (x.length - 4 - ws.length - d0.length) from by omega] at hw0
      rw [getElem?_append_add] at hw0
      rw [show x.length - 4 - ws.length - d0.length =
        (x.length - 4 - ws.length - d0.length - 1) + 1 from by omega] at hw0
      rw [List.getElem?_cons_succ] at hw0
      obtain ⟨pc, hpcL, hma⟩ := ciEqL_getElem hlit _ _ hw0
      have hj2 : x.length - 4 - ws.length - d0.length - 1 = 2 :=
        litF_unique hpcL (ciMatch_inv_F hma
          (ciMatch_concrete hA (by decide : ('f' : Char).toNat = ('F' : Char).toNat + 32)))
      rw [hs3] at hw1
      rw [show x.length + 1 = f.length + (x.length + 1 - 4) from by omega] at hw1
      rw [getElem?_append_add] at hw1
      rw [show x.length + 1 - 4 = ws.length + (x.length - 4 - ws.length + 1) from by omega]
        at hw1
      rw [getElem?_append_add] at hw1
      rw [getElem?_append_lt (show x.length - 4 - ws.length + 1 <
        (d0 ++ '.' :: lit).length from by omega)] at hw1
      rw [show x.length - 4 - ws.length + 1 = d0.length + (3 + 1) from by omega] at hw1
      rw [getElem?_append_add, List.getElem?_cons_succ] at hw1
      obtain ⟨pc2, hpcL2, hmb⟩ := ciEqL_getElem hlit _ _ hw1
      rw [litO3] at hpcL2
      obtain rfl := Option.some.inj hpcL2
      rcases hbrf with rfl | rfl <;> exact absurd hmb (by decide)

theorem qualify_error_of_unprefixed_occurrence (p f ws lit suf : Str)
    (hf : ciEqL f fromChars = true) (hws_ne : ws ≠ [])
    (hws_sp : ∀ c ∈ ws, isSpaceChar c = true)
    (hlit : ciEqL lit infoTablesChars = true) :
    ∀ fuel pre, (pre ++ (f ++ (ws ++ (lit ++ suf)))).length ≤ fuel →
      qualifyAux p fuel (pre ++ (f ++ (ws ++ (lit ++ suf)))) = .error qualErrMsg := by
  have hlf : f.length = 4 := by rw [ciEqL_length hf]; decide
  have hllit : lit.length = 25 := by rw [ciEqL_length hlit]; decide
  have hunp : IsUnprefixedMatch (f ++ ws ++ lit) :=
    ⟨f, ws, lit, rfl, hf, hws_ne, hws_sp, hlit⟩
  obtain ⟨f0, f234, rfl, hf0, hfr⟩ := by
    rw [show fromChars = 'F' :: 'R' :: 'O' :: 'M' :: ([] : Str) from by decide] at hf
    exact ciEqL_cons_iff.mp hf
  obtain ⟨f1, f34, rfl, hf1, hfr2⟩ := ciEqL_cons_iff.mp hfr
  obtain ⟨f2, f4l, rfl, hf2, hfr3⟩ := ciEqL_cons_iff.mp hfr2
  obtain ⟨f3, fnil, rfl, hf3, hfr4⟩ := ciEqL_cons_iff.mp hfr3
  obtain rfl := ciEqL_nil_iff.mp hfr4
  obtain ⟨e0, wtl, rfl⟩ := List.exists_cons_of_ne_nil hws_ne
  have he0 : isSpaceChar e0 = true := hws_sp e0 (by simp)
  intro fuel
  induction fuel with
  | zero =>
    intro pre hlen
    simp only [List.length_append, List.length_cons] at hlen
    omega
  | succ n ih =>
    intro pre hlen
    cases pre with
    | nil =>
      have hmq := matchQualAt_unprefixed hunp suf
      simp only [List.cons_append, List.nil_append, List.append_assoc] at hmq
      simp only [List.cons_append, List.nil_append, List.append_assoc]
      simp only [qualifyAux, hmq]
    | cons c pre2 =>
      rw [List.cons_append]
      cases hmc : matchQualAt (c :: (pre2 ++ ((f0 :: f1 :: f2 :: f3 :: ([] : Str)) ++
          ((e0 :: wtl) ++ (lit ++ suf))))) with
      | none =>
        simp only [qualifyAux, hmc]
        rw [ih pre2 (by
          simp only [List.length_append, List.length_cons] at hlen ⊢
          omega)]
        rfl
      | some res =>
        obtain ⟨m, dOpt, r⟩ := res
        obtain ⟨hs2, hshape⟩ := matchQualAt_sound hmc
        cases dOpt with
        | none => simp only [qualifyAux, hmc]
        | some d0 =>
          have hsw2 : c :: (pre2 ++ ((f0 :: f1 :: f2 :: f3 :: ([] : Str)) ++
              ((e0 :: wtl) ++ (lit ++ suf)))) =
              (c :: pre2) ++ (f0 :: f1 :: f2 :: f3 :: e0 :: (wtl ++ (lit ++ suf))) := by
            simp
          have hml := match_within_prefix (List.cons_ne_nil c pre2) hsw2
            hf0 hf1 hf2 hf3 he0 hmc
          have hm4 : 4 ≤ m.length := by
            obtain ⟨f', ws', lit', hm', hf', -, -, -, -, -⟩ := hshape
            have hlf' : f'.length = 4 := by rw [ciEqL_length hf']; decide
            rw [hm']
            simp only [List.length_append, List.length_cons]
            omega
          have htk : m = (c :: pre2).take m.length := by
            have h1 : m = (m ++ r).take m.length := (List.take_left m r).symm
            rw [← hs2, hsw2] at h1
            rwa [List.take_append_of_le_length hml] at h1
          have hsplit : c :: pre2 = m ++ (c :: pre2).drop m.length := by
            conv_lhs => rw [← List.take_append_drop m.length (c :: pre2)]
            rw [← htk]
          have h2 : m ++ r = m ++ (((c :: pre2).drop m.length) ++
              ((f0 :: f1 :: f2 :: f3 :: ([] : Str)) ++ ((e0 :: wtl) ++ (lit ++ suf)))) := by
            rw [← hs2]
            conv_rhs => rw [← List.append_assoc, ← hsplit]
            simp
          have hr : r = ((c :: pre2).drop m.length) ++
              ((f0 :: f1 :: f2 :: f3 :: ([] : Str)) ++ ((e0 :: wtl) ++ (lit ++ suf))) :=
            List.append_cancel_left h2
          simp only [qualifyAux, hmc]
          rw [hr, ih ((c :: pre2).drop m.length) (by
            simp only [List.length_append, List.length_cons, List.length_drop] at hlen ⊢
            omega)]
          rfl

theorem no_match_of_none {s : Str} (h : matchQualAt s = none) :
    ∀ m rest, s = m ++ rest → ¬ IsCatalogMatch m := by
  intro m rest hs hcat
  rcases hcat with ⟨d, hp⟩ | hu
  · rw [hs, matchQualAt_prefixed hp rest] at h
    cases h
  · rw [hs, matchQualAt_unprefixed hu rest] at h
    cases h

theorem qualifyAux_rewrites (p : Str) : ∀ fuel s t, s.length ≤ fuel →
    qualifyAux p fuel s = .ok t → QualRewrites p s t := by
  intro fuel
  induction fuel with
  | zero =>
    intro s t hlen hok
    cases s with
    | nil =>
      simp only [qualifyAux, Except.ok.injEq] at hok
      subst hok
      exact .nil
    | cons c rest => simp at hlen
  | succ n ih =>
    intro s t hlen hok
    cases s with
    | nil =>
      simp only [qualifyAux, Except.ok.injEq] at hok
      subst hok
      exact .nil
    | cons c rest =>
      simp only [qualifyAux] at hok
      split at hok
      next m d r heq =>
        cases hq : qualifyAux p n r with
        | error e =>
          rw [hq] at hok
          simp [Except.map] at hok
        | ok t2 =>
          rw [hq] at hok
          simp only [Except.map, Except.ok.injEq] at hok
          subst hok
          obtain ⟨hs2, hshape⟩ := matchQualAt_sound heq
          have hm4 : 4 ≤ m.length := by
            obtain ⟨f2, ws2, lit2, hm2, hf2, -, -, -, -, -⟩ := hshape
            have : f2.length = 4 := by rw [ciEqL_length hf2]; decide
            rw [hm2]
            simp only [List.length_append, List.length_cons]
            omega
          have hrlen : r.length ≤ n := by
            have := congrArg List.length hs2
            simp only [List.length_append, List.length_cons] at this
            simp only [List.length_cons] at hlen
            omega
          rw [hs2]
          exact QualRewrites.rw m d r t2 hshape (ih r t2 hrlen hq)
      next heq => cases hok
      next heq =>
        cases hq : qualifyAux p n rest with
        | error e =>
          rw [hq] at hok
          simp [Except.map] at hok
        | ok t2 =>
          rw [hq] at hok
          simp only [Except.map, Except.ok.injEq] at hok
          subst hok
          exact QualRewrites.copy c rest t2 (no_match_of_none heq)
            (ih rest t2 (by simp only [List.length_cons] at hlen; omega) hq)

/-! ### Idempotence of the qualifier -/

theorem fromWsShape_of_prefixed {m d : Str} (h : IsPrefixedMatch m d) : FromWsShape m := by
  obtain ⟨f, ws, lit, rfl, hf, hws_ne, hws_sp, hd_ne, hd_word, hlit⟩ := h
  obtain ⟨f0, f234, rfl, hf0, hfr⟩ := by
    rw [show fromChars = 'F' :: 'R' :: 'O' :: 'M' :: ([] : Str) from by decide] at hf
    exact ciEqL_cons_iff.mp hf
  obtain ⟨f1, f34, rfl, hf1, hfr2⟩ := ciEqL_cons_iff.mp hfr
  obtain ⟨f2, f4l, rfl, hf2, hfr3⟩ := ciEqL_cons_iff.mp hfr2
  obtain ⟨f3, fnil, rfl, hf3, hfr4⟩ := ciEqL_cons_iff.mp hfr3
  obtain rfl := ciEqL_nil_iff.mp hfr4
  obtain ⟨e0, wtl, rfl⟩ := List.exists_cons_of_ne_nil hws_ne
  exact ⟨f0, f1, f2, f3, e0, wtl ++ d ++ '.' :: lit, by simp, hf0, hf1, hf2, hf3,
    hws_sp e0 (by simp)⟩

theorem fromWsShape_of_unprefixed {m : Str} (h : IsUnprefixedMatch m) : FromWsShape m := by
  obtain ⟨f, ws, lit, rfl, hf, hws_ne, hws_sp, hlit⟩ := h
  obtain ⟨f0, f234, rfl, hf0, hfr⟩ := by
    rw [show fromChars = 'F' :: 'R' :: 'O' :: 'M' :: ([] : Str) from by decide] at hf
    exact ciEqL_cons_iff.mp hf
  obtain ⟨f1, f34, rfl, hf1, hfr2⟩ := ciEqL_cons_iff.mp hfr
  obtain ⟨f2, f4l, rfl, hf2, hfr3⟩ := ciEqL_cons_iff.mp hfr2
  obtain ⟨f3, fnil, rfl, hf3, hfr4⟩ := ciEqL_cons_iff.mp hfr3
  obtain rfl := ciEqL_nil_iff.mp hfr4
  obtain ⟨e0, wtl, rfl⟩ := List.exists_cons_of_ne_nil hws_ne
  exact ⟨f0, f1, f2, f3, e0, wtl ++ lit, by simp, hf0, hf1, hf2, hf3,
    hws_sp e0 (by simp)⟩

/-- The replacement text itself starts with the literal characters
`FROM ` (uppercase, single space). -/
theorem fromWsShape_rwStr (p d : Str) : FromWsShape (rwStr p d) :=
  ⟨'F', 'R', 'O', 'M', ' ', (rwStr p d).drop 5, rfl, by decide, by decide, by decide,
    by decide, by decide⟩

/-- Any string at which the catalog pattern matches has the `FROM`-plus-
whitespace head shape. -/
theorem matchQualAt_some_shape {s m : Str} {dOpt : Option Str} {r : Str}
    (h : matchQualAt s = some (m, dOpt, r)) : FromWsShape s := by
  obtain ⟨hs2, hshape⟩ := matchQualAt_sound h
  cases dOpt with
  | some d =>
    obtain ⟨a, b, c, d0, e, w2, hm, h1, h2, h3, h4, h5⟩ := fromWsShape_of_prefixed hshape
    exact ⟨a, b, c, d0, e, w2 ++ r, by rw [hs2, hm]; simp, h1, h2, h3, h4, h5⟩
  | none =>
    obtain ⟨a, b, c, d0, e, w2, hm, h1, h2, h3, h4, h5⟩ := fromWsShape_of_unprefixed hshape
    exact ⟨a, b, c, d0, e, w2 ++ r, by rw [hs2, hm]; simp, h1, h2, h3, h4, h5⟩

/-- Probe transfer: whether a match starts strictly inside `x` does not
depend on what follows `x`, as long as what follows starts with the
`FROM`-plus-whitespace head shape (the probe characters the overlap lemma
inspects).  Replacing one head-shaped continuation by another preserves
"no match here". -/
theorem none_transfer {x u y v z : Str} (hx : x ≠ [])
    (hu : FromWsShape u) (hv : FromWsShape v)
    (hnone : matchQualAt (x ++ (u ++ y)) = none) :
    matchQualAt (x ++ (v ++ z)) = none := by
  cases hmv : matchQualAt (x ++ (v ++ z)) with
  | none => rfl
  | some res =>
    exfalso
    obtain ⟨m, dOpt, r⟩ := res
    obtain ⟨a, b, c, d0, e, w2, hveq, hA, hB, hC, hD, hE⟩ := hv
    have hsw : x ++ (v ++ z) = x ++ (a :: b :: c :: d0 :: e :: (w2 ++ z)) := by
      rw [hveq]
      simp
    have hml := match_within_prefix hx hsw hA hB hC hD hE hmv
    obtain ⟨hs2, hshape⟩ := matchQualAt_sound hmv
    have h1 : m = (m ++ r).take m.length := (List.take_left m r).symm
    rw [← hs2] at h1
    rw [List.take_append_of_le_length hml] at h1
    have hsplit : x = m ++ x.drop m.length := by
      conv_lhs => rw [← List.take_append_drop m.length x]
      rw [← h1]
    have hu2 : x ++ (u ++ y) = m ++ (x.drop m.length ++ (u ++ y)) := by
      conv_lhs => rw [hsplit]
      rw [List.append_assoc]
    cases dOpt with
    | some d1 =>
      rw [hu2, matchQualAt_prefixed hshape _] at hnone
      cases hnone
    | none =>
      rw [hu2, matchQualAt_unprefixed hshape _] at hnone
      cases hnone

/-- The replacement text rewritten as a prefix plus its last four
characters (which are `LES` followed by the closing backtick). -/
theorem rwStr_last4 (p d : Str) :
    rwStr p d = ("FROM `".data ++ p ++ '.' :: d ++ '.' :: "INFORMATION_SCHEMA.TAB".data)
      ++ "LES`".data := by
  have h : ('.' :: "INFORMATION_SCHEMA.TABLES`".data : Str) =
      ('.' :: "INFORMATION_SCHEMA.TAB".data) ++ "LES`".data := by decide
  show "FROM `".data ++ p ++ '.' :: d ++ '.' :: "INFORMATION_SCHEMA.TABLES`".data = _
  rw [h, ← List.append_assoc]

/-- Past its opening `FROM ` the replacement text contains no whitespace:
a backtick, project characters, dots, dataset word characters and the
catalog literal only. -/
theorem rwStr_tail_char {p d : Str} (hp : ∀ c ∈ p, isProjChar c = true)
    (hd : ∀ c ∈ d, isWordChar c = true) {j : Nat} {ch : Char}
    (hj : 5 ≤ j) (hch : (rwStr p d)[j]? = some ch) : isSpaceChar ch = false := by
  have hdrop : (rwStr p d).drop 5 =
      "`".data ++ p ++ '.' :: d ++ '.' :: "INFORMATION_SCHEMA.TABLES`".data := rfl
  have hsub : ((rwStr p d).drop 5)[j - 5]? = some ch := by
    rw [List.getElem?_drop, show 5 + (j - 5) = j from by omega]
    exact hch
  have hmem : ch ∈ (rwStr p d).drop 5 := List.getElem?_mem hsub
  rw [hdrop] at hmem
  rcases List.mem_append.mp hmem with hm1 | hm2
  · rcases List.mem_append.mp hm1 with hm3 | hm4
    · rcases List.mem_append.mp hm3 with hm5 | hm6
      · exact (by decide : ∀ c ∈ ("`".data : Str), isSpaceChar c = false) ch hm5
      · exact proj_not_space (hp ch hm6)
    · rcases List.mem_cons.mp hm4 with rfl | hm7
      · decide
      · exact word_not_space (hd ch hm7)
  · exact (by decide : ∀ c ∈ ('.' :: "INFORMATION_SCHEMA.TABLES`".data : Str),
      isSpaceChar c = false) ch hm2

/-- None of the last four characters of the replacement text can start a
case-insensitive `FROM`. -/
theorem rwStr_last4_no_F {p d : Str} {j : Nat} {ch : Char}
    (hj : (rwStr p d).length - 4 ≤ j) (hch : (rwStr p d)[j]? = some ch) :
    ciMatch ch 'F' = false := by
  obtain ⟨A, hr⟩ : ∃ A, rwStr p d = A ++ "LES`".data := ⟨_, rwStr_last4 p d⟩
  have hlen : (rwStr p d).length = A.length + 4 := by
    rw [hr]
    simp only [List.length_append]
    rfl
  have hjlt : j < A.length + 4 := by
    by_contra hge
    push_neg at hge
    rw [List.getElem?_eq_none_iff.mpr (by omega)] at hch
    cases hch
  rw [hr] at hch
  rw [show j = A.length + (j - A.length) from by omega] at hch
  rw [getElem?_append_add] at hch
  have hcase : j - A.length = 0 ∨ j - A.length = 1 ∨ j - A.length = 2 ∨
      j - A.length = 3 := by omega
  rcases hcase with h0 | h0 | h0 | h0 <;> rw [h0] at hch
  · rw [show ("LES`".data : Str)[0]? = some 'L' from by decide] at hch
    obtain rfl := Option.some.inj hch
    decide
  · rw [show ("LES`".data : Str)[1]? = some 'E' from by decide] at hch
    obtain rfl := Option.some.inj hch
    decide
  · rw [show ("LES`".data : Str)[2]? = some 'S' from by decide] at hch
    obtain rfl := Option.some.inj hch
    decide
  · rw [show ("LES`".data : Str)[3]? = some '\x60' from by decide] at hch
    obtain rfl := Option.some.inj hch
    decide

/-- No occurrence of the catalog pattern starts anywhere inside the
replacement text, whatever follows it: at its start the backtick stops the
match, and further in there is no whitespace where the pattern needs it
(or no `F` at all in the final four characters). -/
theorem rwStr_no_match {p d : Str} (hp : ∀ c ∈ p, isProjChar c = true)
    (hd : ∀ c ∈ d, isWordChar c = true) (k : Nat) (hk : k < (rwStr p d).length)
    (t1 : Str) : matchQualAt ((rwStr p d).drop k ++ t1) = none := by
  cases k with
  | zero => rfl
  | succ k0 =>
    cases hres : matchQualAt ((rwStr p d).drop (k0 + 1) ++ t1) with
    | none => rfl
    | some res =>
      exfalso
      obtain ⟨m, dOpt, r⟩ := res
      obtain ⟨a, b, c0, d0, e, w2, hsh, hA, hB, hC, hD, hE⟩ := matchQualAt_some_shape hres
      have hdl : ((rwStr p d).drop (k0 + 1)).length = (rwStr p d).length - (k0 + 1) := by
        simp [List.length_drop]
      rcases Nat.lt_or_ge 4 ((rwStr p d).drop (k0 + 1)).length with hgt | hle
      · have he4 : ((rwStr p d).drop (k0 + 1) ++ t1)[4]? = some e := by
          rw [hsh]
          simp
        rw [getElem?_append_lt hgt] at he4
        rw [List.getElem?_drop] at he4
        have hfalse := rwStr_tail_char hp hd (show 5 ≤ k0 + 1 + 4 by omega) he4
        rw [hfalse] at hE
        exact Bool.noConfusion hE
      · have ha0 : ((rwStr p d).drop (k0 + 1) ++ t1)[0]? = some a := by
          rw [hsh]
          simp
        have hpos : 0 < ((rwStr p d).drop (k0 + 1)).length := by
          rw [hdl]
          omega
        rw [getElem?_append_lt hpos] at ha0
        rw [List.getElem?_drop] at ha0
        have hj : (rwStr p d).length - 4 ≤ k0 + 1 + 0 := by omega
        have hnoF := rwStr_last4_no_F hj ha0
        rw [hA] at hnoF
        exact Bool.noConfusion hnoF

/-- Structure of a successful `replace` run: either nothing was rewritten
and the output is the input, or the output starts with a (possibly empty)
copied prefix followed by the replacement text for the first rewritten
match. -/
theorem qualifyAux_split (p : Str) : ∀ fuel s t, s.length ≤ fuel →
    qualifyAux p fuel s = .ok t →
    t = s ∨ ∃ x m d s1 t1, s = x ++ (m ++ s1) ∧ t = x ++ (rwStr p d ++ t1) ∧
      IsPrefixedMatch m d := by
  intro fuel
  induction fuel with
  | zero =>
    intro s t hlen hok
    cases s with
    | nil =>
      simp only [qualifyAux, Except.ok.injEq] at hok
      subst hok
      exact Or.inl rfl
    | cons c rest => simp at hlen
  | succ n ih =>
    intro s t hlen hok
    cases s with
    | nil =>
      simp only [qualifyAux, Except.ok.injEq] at hok
      subst hok
      exact Or.inl rfl
    | cons c rest =>
      simp only [qualifyAux] at hok
      split at hok
      next m d r heq =>
        cases hq : qualifyAux p n r with
        | error e =>
          rw [hq] at hok
          simp [Except.map] at hok
        | ok t2 =>
          rw [hq] at hok
          simp only [Except.map, Except.ok.injEq] at hok
          subst hok
          obtain ⟨hs2, hshape⟩ := matchQualAt_sound heq
          refine Or.inr ⟨[], m, d, r, t2, ?_, ?_, hshape⟩
          · rw [List.nil_append]
            exact hs2
          · rw [List.nil_append]
      next heq => cases hok
      next heq =>
        cases hq : qualifyAux p n rest with
        | error e =>
          rw [hq] at hok
          simp [Except.map] at hok
        | ok t2 =>
          rw [hq] at hok
          simp only [Except.map, Except.ok.injEq] at hok
          subst hok
          rcases ih rest t2 (by simp only [List.length_cons] at hlen; omega) hq with
            heqt | ⟨x, m, d, s1, t1, hrest, ht2, hpm⟩
          · exact Or.inl (by rw [heqt])
          · exact Or.inr ⟨c :: x, m, d, s1, t1, by rw [hrest, List.cons_append],
              by rw [ht2, List.cons_append], hpm⟩

/-- The output of a successful `replace` run is clean: the pattern matches
at no position of the output. -/
theorem qualifyAux_clean (p : Str) (hp : ∀ c ∈ p, isProjChar c = true) :
    ∀ fuel s t, s.length ≤ fuel → qualifyAux p fuel s = .ok t →
    ∀ k, matchQualAt (t.drop k) = none := by
  intro fuel
  induction fuel with
  | zero =>
    intro s t hlen hok k
    cases s with
    | nil =>
      simp only [qualifyAux, Except.ok.injEq] at hok
      subst hok
      rw [List.drop_nil]
      rfl
    | cons c rest => simp at hlen
  | succ n ih =>
    intro s t hlen hok k
    cases s with
    | nil =>
      simp only [qualifyAux, Except.ok.injEq] at hok
      subst hok
      rw [List.drop_nil]
      rfl
    | cons c rest =>
      simp only [qualifyAux] at hok
      split at hok
      next m d r heq =>
        cases hq : qualifyAux p n r with
        | error e =>
          rw [hq] at hok
          simp [Except.map] at hok
        | ok t2 =>
          rw [hq] at hok
          simp only [Except.map, Except.ok.injEq] at hok
          subst hok
          obtain ⟨hs2, hshape⟩ := matchQualAt_sound heq
          obtain ⟨f, ws, lit, hm, hf, hwsne, hwssp, hdne, hdw, hlit⟩ := hshape
          have hm1 : 1 ≤ m.length := by
            have : f.length = 4 := by rw [ciEqL_length hf]; decide
            rw [hm]
            simp only [List.length_append, List.length_cons]
            omega
          have hrlen : r.length ≤ n := by
            have := congrArg List.length hs2
            simp only [List.length_append, List.length_cons] at this
            simp only [List.length_cons] at hlen
            omega
          rcases Nat.lt_or_ge k (rwStr p d).length with hklt | hkge
          · rw [List.drop_append_of_le_length (le_of_lt hklt)]
            exact rwStr_no_match hp hdw k hklt t2
          · rw [show k = (rwStr p d).length + (k - (rwStr p d).length) from by omega,
              List.drop_append]
            exact ih r t2 hrlen hq (k - (rwStr p d).length)
      next heq => cases hok
      next heq =>
        cases hq : qualifyAux p n rest with
        | error e =>
          rw [hq] at hok
          simp [Except.map] at hok
        | ok t2 =>
          rw [hq] at hok
          simp only [Except.map, Except.ok.injEq] at hok
          subst hok
          have hrlen : rest.length ≤ n := by
            simp only [List.length_cons] at hlen
            omega
          cases k with
          | zero =>
            simp only [List.drop_zero]
            rcases qualifyAux_split p n rest t2 hrlen hq with
              heqt | ⟨x, m, d, s1, t1, hrest, ht2, hpm⟩
            · rw [heqt]
              exact heq
            · have hnone : matchQualAt ((c :: x) ++ (m ++ s1)) = none := by
                rw [List.cons_append, ← hrest]
                exact heq
              have h2 : matchQualAt ((c :: x) ++ (rwStr p d ++ t1)) = none :=
                none_transfer (List.cons_ne_nil c x)
                  (fromWsShape_of_prefixed hpm) (fromWsShape_rwStr p d) hnone
              rw [List.cons_append, ← ht2] at h2
              exact h2
          | succ k0 =>
            exact ih rest t2 hrlen hq k0

/-- `replace` is the identity on clean strings: with no match anywhere,
every character is copied unchanged. -/
theorem qualifyAux_of_clean (p : Str) : ∀ fuel t, t.length ≤ fuel →
    (∀ k, matchQualAt (t.drop k) = none) → qualifyAux p fuel t = .ok t := by
  intro fuel
  induction fuel with
  | zero =>
    intro t hlen hcl
    cases t with
    | nil => rfl
    | cons c rest => simp at hlen
  | succ n ih =>
    intro t hlen hcl
    cases t with
    | nil => rfl
    | cons c rest =>
      have h0 : matchQualAt (c :: rest) = none := by
        have := hcl 0
        simpa using this
      simp only [qualifyAux, h0]
      rw [ih rest (by simp only [List.length_cons] at hlen; omega)
        (fun k => by have := hcl (k + 1); simpa using this)]
      rfl

/-! ### Claim theorems -/

/-- C1: the Query Safety Gate fails exactly on the SQL strings containing a
whole-word, case-insensitive occurrence of a forbidden token; SQL whose
forbidden tokens are all embedded in larger identifiers passes. -/
theorem gate_whole_word_characterisation (sql : Str) :
    (∃ e, checkReadOnly sql = .error e) ↔
      ∃ tok ∈ forbiddenTokens, IsWholeWordOcc sql tok := by
  rw [← forbiddenPatternTest_iff]
  unfold checkReadOnly
  by_cases h : forbiddenPatternTest sql = true
  · simp [h]
  · simp [h]

/-- C2: when the SQL contains a whole-word forbidden token, the `query` tool
invocation fails with the Safety Gate's error before the qualifier runs and
no warehouse request is ever produced. -/
theorem gate_blocks_warehouse_call (cfg : ServerConfig) (sql : Str) (mb : Option Str)
    (tok : Str) (htok : tok ∈ forbiddenTokens) (hocc : IsWholeWordOcc sql tok) :
    callToolQuery cfg "query".data sql mb = .error gateMsg := by
  have hchk : checkReadOnly sql = .error gateMsg := by
    unfold checkReadOnly
    rw [if_pos (forbiddenPatternTest_iff.mpr ⟨tok, htok, hocc⟩)]
  simp only [callToolQuery, hchk]
  simp

theorem gate_blocks_warehouse_call_witness :
    callToolQuery ⟨"acme-data".data, some "US".data, none⟩ "query".data
      "DROP TABLE sales.orders".data none = .error gateMsg :=
  gate_blocks_warehouse_call _ _ _ "DROP".data (by decide) dropOccExample

/-- C3: SQL containing the pattern `FROM INFORMATION_SCHEMA.TABLES` with no
dataset prefix (case-insensitive keyword and literal, any whitespace, any
surrounding text) makes the Qualifier fail with the
unqualified-catalog error, so no rewritten SQL is produced. -/
theorem qualifier_fails_unqualified (p pre f ws lit suf : Str)
    (hf : ciEqL f fromChars = true) (hws_ne : ws ≠ [])
    (hws_sp : ∀ c ∈ ws, isSpaceChar c = true)
    (hlit : ciEqL lit infoTablesChars = true) :
    qualifyTablePath (pre ++ (f ++ (ws ++ (lit ++ suf)))) p = .error qualErrMsg :=
  qualify_error_of_unprefixed_occurrence p f ws lit suf hf hws_ne hws_sp hlit _ pre le_rfl

theorem qualifier_fails_unqualified_witness :
    qualifyTablePath ("SELECT * ".data ++ ("from".data ++ (" ".data ++
      ("Information_Schema.Tables".data ++ " LIMIT 5".data)))) "acme-data".data =
      .error qualErrMsg :=
  qualifier_fails_unqualified "acme-data".data "SELECT * ".data "from".data " ".data
    "Information_Schema.Tables".data " LIMIT 5".data (by decide) (by decide)
    (by decide) (by decide)

/-- C4: when the Qualifier succeeds, its output is related to the input by
the one-pass leftmost rewrite relation of the spec: every dataset-prefixed
catalog reference becomes the fully qualified, backtick-quoted form, and
every character outside the matched spans is copied byte-for-byte. -/
theorem qualifier_rewrites_soundly (sql p out : Str)
    (h : qualifyTablePath sql p = .ok out) : QualRewrites p sql out :=
  qualifyAux_rewrites p sql.length sql out le_rfl h

theorem qualifier_rewrites_soundly_witness :
    QualRewrites "acme-data".data "SELECT 1 FROM ds.INFORMATION_SCHEMA.TABLES".data
      "SELECT 1 FROM `acme-data.ds.INFORMATION_SCHEMA.TABLES`".data :=
  qualifier_rewrites_soundly _ _ _ (by decide)

/-- C5: the resource URI the mapper produces for a dataset and table is
accepted by `readResource`, resolves back to exactly that dataset and
table, and yields that table's field-descriptor list. -/
theorem resource_uri_round_trip (p : Str) (w : Warehouse) (ds : DatasetEnt) (tb : TableEnt)
    (hds : ds ∈ w) (htb : tb ∈ ds.tables)
    (hnd : (w.map DatasetEnt.id).Nodup) (hndt : (ds.tables.map TableEnt.id).Nodup)
    (hp : projIdOk p) (hdid : urlSafeId ds.id) (htid : urlSafeId tb.id) :
    mkResourceUri p ds.id tb.id ∈ (listResources p w).map ResourceDesc.uri ∧
    parseResourceUri (mkResourceUri p ds.id tb.id) = .ok (some ds.id, some tb.id) ∧
    readResource w (mkResourceUri p ds.id tb.id) = .ok tb.fields := by
  refine ⟨mem_listResources hds htb, parse_mkResourceUri hp hdid htid, ?_⟩
  simp only [readResource, parse_mkResourceUri hp hdid htid,
    fetchMetadata_found hds htb hnd hndt]
  rfl

theorem resource_uri_round_trip_witness :
    (mkResourceUri "acme-data".data "sales".data "orders".data ∈
      (listResources "acme-data".data
        [⟨"sales".data, [⟨"orders".data, "TABLE".data, [⟨"id".data, "INTEGER".data⟩]⟩]⟩]).map
        ResourceDesc.uri) ∧
    parseResourceUri (mkResourceUri "acme-data".data "sales".data "orders".data) =
      .ok (some "sales".data, some "orders".data) ∧
    readResource
      [⟨"sales".data, [⟨"orders".data, "TABLE".data, [⟨"id".data, "INTEGER".data⟩]⟩]⟩]
      (mkResourceUri "acme-data".data "sales".data "orders".data) =
      .ok [⟨"id".data, "INTEGER".data⟩] :=
  resource_uri_round_trip "acme-data".data
    [⟨"sales".data, [⟨"orders".data, "TABLE".data, [⟨"id".data, "INTEGER".data⟩]⟩]⟩]
    ⟨"sales".data, [⟨"orders".data, "TABLE".data, [⟨"id".data, "INTEGER".data⟩]⟩]⟩
    ⟨"orders".data, "TABLE".data, [⟨"id".data, "INTEGER".data⟩]⟩
    (by decide) (by decide) (by decide) (by decide) (by decide) (by decide) (by decide)

/-- C6: a resource URI whose final path segment is not the literal `schema`
marker makes `readResource` fail with the invalid-URI error, for every
warehouse — no metadata fetch takes place. -/
theorem read_resource_rejects_bad_marker (w : Warehouse) (uri : Str)
    (h : (splitSlash (urlPathname uri)).getLast? ≠ some SCHEMA_PATH) :
    readResource w uri = .error invalidUriMsg := by
  have hp : parseResourceUri uri = .error invalidUriMsg := by
    simp only [parseResourceUri]
    rw [if_neg h]
  simp only [readResource, hp]

theorem read_resource_rejects_bad_marker_witness :
    readResource [] "bigquery://acme-data/sales/orders/metadata".data =
      .error invalidUriMsg :=
  read_resource_rejects_bad_marker [] _ (by decide)

/-- C7 (evidence): with `--location` omitted the parsed configuration has
region `"US"`, not `"EU"`, and that `"US"` is what a query execution
submits to the warehouse — the code disagrees with its changelog entry
`Default region set to "EU"`. -/
theorem parse_args_location_defaults_US :
    parseArgs ["--project-id".data, "acme-data".data] =
      .ok ⟨"acme-data".data, some "US".data, none⟩ ∧
    callToolQuery ⟨"acme-data".data, some "US".data, none⟩ "query".data
      "SELECT 1".data none =
      .ok ⟨"SELECT 1".data, some "US".data, defaultMaxBytes⟩ := by
  constructor <;> decide

/-- C8 (counterexample): rejecting `DROP TABLE sales.orders` produces the
fixed message `Only READ operations are allowed`, which does not name the
matched token `DROP`. -/
theorem gate_error_omits_token_name :
    callToolQuery ⟨"acme-data".data, some "US".data, none⟩ "query".data
        "DROP TABLE sales.orders".data none = .error gateMsg ∧
      containsSub "DROP".data gateMsg = false := by
  constructor <;> decide

/-- C8 (amended): every SQL string with a whole-word forbidden token is
rejected with the one fixed message `Only READ operations are allowed`, a
message that names none of the forbidden tokens. -/
theorem gate_error_message_is_constant :
    (∀ sql tok, tok ∈ forbiddenTokens → IsWholeWordOcc sql tok →
        checkReadOnly sql = .error gateMsg) ∧
      ∀ tok ∈ forbiddenTokens, containsSub tok gateMsg = false := by
  constructor
  · intro sql tok htok hocc
    unfold checkReadOnly
    rw [if_pos (forbiddenPatternTest_iff.mpr ⟨tok, htok, hocc⟩)]
  · decide

theorem gate_error_message_is_constant_witness :
    checkReadOnly "DROP TABLE sales.orders".data = .error gateMsg :=
  gate_error_message_is_constant.1 _ "DROP".data (by decide) dropOccExample

/-- C9: a URI whose path ends in the `schema` marker but has fewer than
three segments is not rejected — the trailing-marker test is the only URI
validation; the missing components are popped as empty or absent values and
handed to the metadata fetch. -/
theorem read_resource_short_path_no_uri_error (w : Warehouse) (uri : Str)
    (hlast : (splitSlash (urlPathname uri)).getLast? = some SCHEMA_PATH)
    (hlen : (splitSlash (urlPathname uri)).length ≤ 3) :
    ∃ dOpt tOpt, parseResourceUri uri = .ok (dOpt, tOpt) ∧
      (dOpt = none ∨ dOpt = some []) ∧
      readResource w uri = (fetchMetadata w dOpt tOpt).map TableEnt.fields := by
  rcases hseg : splitSlash (urlPathname uri) with _ | ⟨a, rest1⟩
  · exact absurd hseg (splitSlash_ne_nil _)
  rcases rest1 with _ | ⟨b, rest2⟩
  · rw [hseg] at hlast
    have ha : a = SCHEMA_PATH := by simpa using hlast
    subst ha
    have hparse : parseResourceUri uri = .ok (none, none) := by
      simp only [parseResourceUri, hseg]
      rfl
    exact ⟨none, none, hparse, Or.inl rfl, by simp only [readResource, hparse]⟩
  rcases rest2 with _ | ⟨c, rest3⟩
  · rw [hseg] at hlast
    have hb : b = SCHEMA_PATH := by simpa using hlast
    subst hb
    have hparse : parseResourceUri uri = .ok (none, some a) := by
      simp only [parseResourceUri, hseg]
      rfl
    exact ⟨none, some a, hparse, Or.inl rfl, by simp only [readResource, hparse]⟩
  have hrest : rest3 = [] := by
    rw [hseg] at hlen
    simp only [List.length_cons] at hlen
    exact List.eq_nil_of_length_eq_zero (by omega)
  subst hrest
  rw [hseg] at hlast
  have hc : c = SCHEMA_PATH := by simpa using hlast
  subst hc
  have ha : a = [] := by
    rcases urlPathname_shape uri with hsh | ⟨X, hsh⟩
    · rw [hsh] at hseg
      simp [splitSlash] at hseg
    · rw [hsh, splitSlash_cons, if_pos rfl] at hseg
      simp only [List.cons.injEq] at hseg
      exact hseg.1.symm
  subst ha
  have hparse : parseResourceUri uri = .ok (some [], some b) := by
    simp only [parseResourceUri, hseg]
    rfl
  exact ⟨some [], some b, hparse, Or.inr rfl, by simp only [readResource, hparse]⟩

theorem read_resource_short_path_no_uri_error_witness :
    ∃ dOpt tOpt,
      parseResourceUri "bigquery://acme-data/schema".data = .ok (dOpt, tOpt) ∧
      (dOpt = none ∨ dOpt = some []) ∧
      readResource [] "bigquery://acme-data/schema".data =
        (fetchMetadata [] dOpt tOpt).map TableEnt.fields :=
  read_resource_short_path_no_uri_error [] _ (by decide) (by decide)

/-- C10: qualification is idempotent.  With a valid project identifier
(the `^[a-z0-9-]+$` class `validateConfig` enforces), whenever
`qualifyTablePath` succeeds, running it again on its output returns the
output unchanged: the backtick-quoted replacement text contains no
further match of the catalog pattern, and neither does any copied text. -/
theorem qualify_idempotent (sql p out : Str) (hp : projIdOk p)
    (h : qualifyTablePath sql p = .ok out) :
    qualifyTablePath out p = .ok out :=
  qualifyAux_of_clean p out.length out le_rfl
    (qualifyAux_clean p hp.2 sql.length sql out le_rfl h)

theorem qualify_idempotent_witness :
    qualifyTablePath "SELECT * FROM `acme-data.ds.INFORMATION_SCHEMA.TABLES`".data
        "acme-data".data =
      .ok "SELECT * FROM `acme-data.ds.INFORMATION_SCHEMA.TABLES`".data :=
  qualify_idempotent "SELECT * FROM ds.INFORMATION_SCHEMA.TABLES".data "acme-data".data
    _ (by decide) (by decide)
